import Mathlib

/-!
Verification development for the BattleScribe catalog transformation pipeline
of the warhammer-list-builder repository (`scripts/parse-bsdata.js`).

The JavaScript source is shallowly embedded below. Conventions of the
embedding:
* XML attributes and text content are `String`s; a missing attribute is
  modelled as the empty string `""` (JavaScript `undefined` and `""` are both
  falsy, and the source only ever tests these values for truthiness,
  `includes`, or equality against non-empty literals).
* The fast-xml-parser wrapper objects (`node.selectionEntries.selectionEntry`
  and friends) are collapsed: a field `selectionEntries : NodeSeq` of the
  embedded node stands for `ensureArray(node?.selectionEntries?.selectionEntry)`.
* JavaScript numbers produced by `parseInt` are modelled as `Option Int`
  (`none` = NaN); the `|| default` idiom is modelled explicitly.
* `String.prototype` methods (`includes`, `trim`, `split`, `toLowerCase`,
  `slice`, `startsWith`, `replace`) are re-implemented over `List Char` so
  that every definition evaluates inside the kernel; `toLowerCase` is
  modelled on the ASCII range, which covers every literal the source
  compares against.
-/

namespace WLB

/-- ASCII lower-casing of a single character (JS `toLowerCase` restricted to
ASCII, which is all the source's comparisons need). -/
def lowerChar (c : Char) : Char :=
  if 'A' ≤ c ∧ c ≤ 'Z' then Char.ofNat (c.toNat + 32) else c

/-- JS `String.prototype.toLowerCase` (ASCII fragment). -/
def asciiLower (s : String) : String := String.mk (s.data.map lowerChar)

/-- Does `l` start with `p`? (helper for `includes`/`startsWith`). -/
def listStartsWith : List Char → List Char → Bool
  | _, [] => true
  | [], _ :: _ => false
  | c :: cs, p :: ps => c == p && listStartsWith cs ps

/-- JS `String.prototype.startsWith`. -/
def jsStartsWith (s p : String) : Bool := listStartsWith s.data p.data

/-- Substring search on character lists (helper for JS `includes`). -/
def jsIncludesL : List Char → List Char → Bool
  | l, pat =>
    if listStartsWith l pat then true
    else
      match l with
      | [] => false
      | _ :: rest => jsIncludesL rest pat

/-- JS `String.prototype.includes`. -/
def jsIncludes (s pat : String) : Bool := jsIncludesL s.data pat.data

/-- Character-list core of JS `trim`. -/
def jsTrimChars (l : List Char) : List Char :=
  ((l.dropWhile Char.isWhitespace).reverse.dropWhile Char.isWhitespace).reverse

/-- JS `String.prototype.trim`. -/
def jsTrim (s : String) : String := String.mk (jsTrimChars s.data)

/-- Split on a separator character (JS `split(',')` with `sep := ','`). -/
def splitCharAux (sep : Char) (cur : List Char) : List Char → List (List Char)
  | [] => [cur.reverse]
  | c :: rest =>
    if c == sep then cur.reverse :: splitCharAux sep [] rest
    else splitCharAux sep (c :: cur) rest

/-- JS `String.prototype.split` with a one-character separator. -/
def jsSplitChar (sep : Char) (s : String) : List String :=
  (splitCharAux sep [] s.data).map String.mk

/-- Remove the first occurrence of `pat` from `l`
(JS `replace(pat, '')` with a string pattern). -/
def removeFirstL : List Char → List Char → List Char
  | l, pat =>
    if listStartsWith l pat then l.drop pat.length
    else
      match l with
      | [] => []
      | c :: rest => c :: removeFirstL rest pat

/-- JS `String.prototype.replace(pat, '')` (string pattern, first occurrence). -/
def jsRemoveFirst (s pat : String) : String := String.mk (removeFirstL s.data pat.data)

/-- JS `replace(/^pat/, '')`: strip `pat` if it is a prefix. -/
def jsStripAnchoredPrefix (s pat : String) : String :=
  if jsStartsWith s pat then String.mk (s.data.drop pat.data.length) else s

/-- JS `replace(/pat$/, '')`: strip `pat` if it is a suffix. -/
def jsStripAnchoredSuffix (s pat : String) : String :=
  if listStartsWith s.data.reverse pat.data.reverse then
    String.mk (s.data.take (s.data.length - pat.data.length))
  else s

/-- JS `String.prototype.slice(i, j)` for `0 ≤ i ≤ j` (the only uses in the
source are in-range non-negative slices of the 32-character MD5 digest). -/
def jsSlice (s : String) (i j : Nat) : String :=
  String.mk ((s.data.drop i).take (j - i))

/-- Decimal value of a digit list (helper for `parseInt`). -/
def digitsVal (l : List Char) : Nat :=
  l.foldl (fun acc c => 10 * acc + (c.toNat - '0'.toNat)) 0

/-- Leading digit run of `l` interpreted as a number (`none` when there is no
digit, i.e. JS NaN). -/
def takeDigits (l : List Char) : Option Int :=
  let ds := l.takeWhile Char.isDigit
  if ds.isEmpty then none else some (digitsVal ds)

/-- JS `parseInt` (base 10): skip leading whitespace, optional sign, then a
digit run; `none` models NaN. -/
def jsParseInt (s : String) : Option Int :=
  match s.data.dropWhile Char.isWhitespace with
  | '-' :: rest => (takeDigits rest).map (fun n => -n)
  | '+' :: rest => takeDigits rest
  | l => takeDigits l

/-- JS `parseInt(v) || d`: NaN and `0` both fall through to the default. -/
def jsIntOr (v : String) (d : Int) : Int :=
  match jsParseInt v with
  | none => d
  | some n => if n = 0 then d else n

/-- JS `parseInt(v) > 0` (false on NaN). -/
def jsIntPos (v : String) : Bool :=
  match jsParseInt v with
  | none => false
  | some n => n > 0

/-- JS `x || d` for an optional string attribute (`none`/empty fall through). -/
def strOr (o : Option String) (d : String) : String :=
  match o with
  | none => d
  | some s => if s == "" then d else s

/-- JS `x || null` for an optional string (empty becomes null). -/
def strOrNull (o : Option String) : Option String :=
  match o with
  | none => none
  | some s => if s == "" then none else some s

/-! ### Deterministic identity generator (`uuidFromSeed`, source lines 15-25)

`uuidFromSeed` hashes the seed with MD5 and formats the 32-character hex
digest as a hyphenated 8-4-4-4-12 token.  MD5 (RFC 1321) is embedded below
over `Nat` with explicit `% 2^32` reductions; the seed is fed to the hash as
its UTF-8 bytes, exactly as node's `crypto.createHash('md5').update(seed)`
does. -/

/-- 32-bit modulus. -/
def w32 : Nat := 4294967296

/-- 32-bit bitwise complement. -/
def not32 (x : Nat) : Nat := 4294967295 ^^^ x

/-- 32-bit left rotation. -/
def rotl32 (x n : Nat) : Nat := ((x <<< n) % w32) ||| (x >>> (32 - n))

/-- UTF-8 encoding of one character. -/
def utf8Char (c : Char) : List Nat :=
  let n := c.toNat
  if n < 128 then [n]
  else if n < 2048 then [192 ||| (n >>> 6), 128 ||| (n &&& 63)]
  else if n < 65536 then
    [224 ||| (n >>> 12), 128 ||| ((n >>> 6) &&& 63), 128 ||| (n &&& 63)]
  else
    [240 ||| (n >>> 18), 128 ||| ((n >>> 12) &&& 63),
     128 ||| ((n >>> 6) &&& 63), 128 ||| (n &&& 63)]

/-- UTF-8 byte sequence of a string. -/
def utf8Bytes (s : String) : List Nat := s.data.flatMap utf8Char

/-- The 64 MD5 sine-derived constants (RFC 1321). -/
def md5K : List Nat :=
  [0xd76aa478, 0xe8c7b756, 0x242070db, 0xc1bdceee,
   0xf57c0faf, 0x4787c62a, 0xa8304613, 0xfd469501,
   0x698098d8, 0x8b44f7af, 0xffff5bb1, 0x895cd7be,
   0x6b901122, 0xfd987193, 0xa679438e, 0x49b40821,
   0xf61e2562, 0xc040b340, 0x265e5a51, 0xe9b6c7aa,
   0xd62f105d, 0x02441453, 0xd8a1e681, 0xe7d3fbc8,
   0x21e1cde6, 0xc33707d6, 0xf4d50d87, 0x455a14ed,
   0xa9e3e905, 0xfcefa3f8, 0x676f02d9, 0x8d2a4c8a,
   0xfffa3942, 0x8771f681, 0x6d9d6122, 0xfde5380c,
   0xa4beea44, 0x4bdecfa9, 0xf6bb4b60, 0xbebfbc70,
   0x289b7ec6, 0xeaa127fa, 0xd4ef3085, 0x04881d05,
   0xd9d4d039, 0xe6db99e5, 0x1fa27cf8, 0xc4ac5665,
   0xf4292244, 0x432aff97, 0xab9423a7, 0xfc93a039,
   0x655b59c3, 0x8f0ccc92, 0xffeff47d, 0x85845dd1,
   0x6fa87e4f, 0xfe2ce6e0, 0xa3014314, 0x4e0811a1,
   0xf7537e82, 0xbd3af235, 0x2ad7d2bb, 0xeb86d391]

/-- The 64 MD5 per-round shift amounts (RFC 1321). -/
def md5S : List Nat :=
  [7, 12, 17, 22, 7, 12, 17, 22, 7, 12, 17, 22, 7, 12, 17, 22,
   5, 9, 14, 20, 5, 9, 14, 20, 5, 9, 14, 20, 5, 9, 14, 20,
   4, 11, 16, 23, 4, 11, 16, 23, 4, 11, 16, 23, 4, 11, 16, 23,
   6, 10, 15, 21, 6, 10, 15, 21, 6, 10, 15, 21, 6, 10, 15, 21]

/-- One MD5 round applied to the running state, `m` being the 16 message
words of the current chunk. -/
def md5Step (m : List Nat) (st : Nat × Nat × Nat × Nat) (i : Nat) :
    Nat × Nat × Nat × Nat :=
  let a := st.1
  let b := st.2.1
  let c := st.2.2.1
  let d := st.2.2.2
  let f :=
    if i < 16 then (b &&& c) ||| (not32 b &&& d)
    else if i < 32 then (d &&& b) ||| (not32 d &&& c)
    else if i < 48 then b ^^^ c ^^^ d
    else c ^^^ (b ||| not32 d)
  let g :=
    if i < 16 then i
    else if i < 32 then (5 * i + 1) % 16
    else if i < 48 then (3 * i + 5) % 16
    else (7 * i) % 16
  let tmp := (f + a + md5K.getD i 0 + m.getD g 0) % w32
  (d, (b + rotl32 tmp (md5S.getD i 0)) % w32, b, c)

/-- Little-endian 32-bit words of a 64-byte chunk. -/
def chunkWords (chunk : List Nat) : List Nat :=
  (List.range 16).map fun j =>
    chunk.getD (4 * j) 0 + 256 * chunk.getD (4 * j + 1) 0 +
      65536 * chunk.getD (4 * j + 2) 0 + 16777216 * chunk.getD (4 * j + 3) 0

/-- Process one 64-byte chunk. -/
def md5Chunk (st : Nat × Nat × Nat × Nat) (chunk : List Nat) :
    Nat × Nat × Nat × Nat :=
  let m := chunkWords chunk
  let r := (List.range 64).foldl (md5Step m) st
  ((st.1 + r.1) % w32, (st.2.1 + r.2.1) % w32,
   (st.2.2.1 + r.2.2.1) % w32, (st.2.2.2 + r.2.2.2) % w32)

/-- MD5 padding: `0x80`, zeros to 56 mod 64, then the bit length as eight
little-endian bytes. -/
def md5Pad (msg : List Nat) : List Nat :=
  let len := msg.length
  let z := (120 - (len + 1) % 64) % 64
  msg ++ 128 :: (List.replicate z 0 ++
    (List.range 8).map fun i => ((8 * len) >>> (8 * i)) % 256)

/-- Split into 64-byte chunks; the fuel argument is bounded by the list
length, which over-approximates the chunk count. -/
def chunks64 : Nat → List Nat → List (List Nat)
  | 0, _ => []
  | _ + 1, [] => []
  | fuel + 1, l => l.take 64 :: chunks64 fuel (l.drop 64)

/-- A 32-bit word as four little-endian bytes. -/
def wordLE (w : Nat) : List Nat :=
  [w % 256, (w >>> 8) % 256, (w >>> 16) % 256, (w >>> 24) % 256]

/-- MD5 digest (16 bytes) of a byte sequence. -/
def md5 (msg : List Nat) : List Nat :=
  let padded := md5Pad msg
  let r := (chunks64 padded.length padded).foldl md5Chunk
    (0x67452301, 0xefcdab89, 0x98badcfe, 0x10325476)
  wordLE r.1 ++ wordLE r.2.1 ++ wordLE r.2.2.1 ++ wordLE r.2.2.2

/-- The sixteen lowercase hex digits. -/
def hexDigitChars : List Char :=
  ['0', '1', '2', '3', '4', '5', '6', '7'] ++ ['8', '9', 'a', 'b', 'c', 'd', 'e', 'f']

/-- Hex digit for a value (used with values `< 16`). -/
def hexDigit : Nat → Char
  | 0 => '0'
  | 1 => '1'
  | 2 => '2'
  | 3 => '3'
  | 4 => '4'
  | 5 => '5'
  | 6 => '6'
  | 7 => '7'
  | 8 => '8'
  | 9 => '9'
  | 10 => 'a'
  | 11 => 'b'
  | 12 => 'c'
  | 13 => 'd'
  | 14 => 'e'
  | _ => 'f'

/-- Lowercase hex rendering of a byte list (node's `digest('hex')`). -/
def toHexChars (bs : List Nat) : List Char :=
  bs.flatMap fun b => [hexDigit (b / 16), hexDigit (b % 16)]

/-- The 32-character hex MD5 digest of a seed string. -/
def md5Hex (s : String) : String := String.mk (toHexChars (md5 (utf8Bytes s)))

/-- JS `Array.prototype.join(sep)`. -/
def jsJoin (sep : String) : List String → String
  | [] => ""
  | [x] => x
  | x :: rest => x ++ sep ++ jsJoin sep rest

/-- `uuidFromSeed` (source lines 16-25): deterministic UUID-shaped token from
the MD5 hex digest, grouped 8-4-4-4-12 and joined with hyphens. -/
def uuidFromSeed (seed : String) : String :=
  let hash := md5Hex seed
  jsJoin "-"
    [jsSlice hash 0 8, jsSlice hash 8 12, jsSlice hash 12 16,
     jsSlice hash 16 20, jsSlice hash 20 32]

/-! ### Attributed document tree

`Node` models one parsed XML element of a `.cat` document.  The repeatable
child collections that the source accesses through
`ensureArray(node?.<wrapper>?.<tag>)` are collapsed into sequence fields.
`NodeSeq` is an inlined list of nodes (a mutual inductive, so that the
recursive extractors below are structurally recursive and evaluate inside
the kernel). -/

/-- One `<characteristic>` element. -/
structure Characteristic where
  typeId : String
  name : String
  text : String
deriving DecidableEq

/-- One `<profile>` element. -/
structure Profile where
  name : String
  typeName : String
  characteristics : List Characteristic
deriving DecidableEq

/-- One `<cost>` element. -/
structure Cost where
  name : String
  value : String
deriving DecidableEq

/-- One `<constraint>` element. -/
structure Constraint where
  type : String
  field : String
  scope : String
  value : String
deriving DecidableEq

/-- One `<condition>` element of a modifier. -/
structure Condition where
  type : String
  field : String
  value : String
deriving DecidableEq

/-- One `<modifier>` element. -/
structure Modifier where
  field : String
  value : String
  conditions : List Condition
deriving DecidableEq

/-- One `<infoLink>` element (only its `type` and `name` attributes are read). -/
structure InfoLink where
  type : String
  name : String
deriving DecidableEq

mutual
/-- An attributed document node.  Fields, in order: the `id`, `name`, `type`,
`hidden`, `targetId` and `comment` attributes (empty string = absent), the
`profiles`, `costs`, `constraints`, `modifiers`, `infoLinks` and
`categoryLinks` collections (category links are read only for their `name`),
then the node-valued collections `selectionEntries`, `selectionEntryGroups`,
`entryLinks` (a link carries `targetId` and may itself hold profiles),
`sharedSelectionEntries` and `sharedSelectionEntryGroups`. -/
inductive Node where
  | mk
      (id name type hidden targetId comment : String)
      (profiles : List Profile)
      (costs : List Cost)
      (constraints : List Constraint)
      (modifiers : List Modifier)
      (infoLinks : List InfoLink)
      (categoryLinks : List String)
      (selectionEntries selectionEntryGroups entryLinks
        sharedSelectionEntries sharedSelectionEntryGroups : NodeSeq) : Node

/-- Inlined list of nodes. -/
inductive NodeSeq where
  | nil : NodeSeq
  | cons (hd : Node) (tl : NodeSeq) : NodeSeq
end

def Node.id : Node → String
  | .mk v _ _ _ _ _ _ _ _ _ _ _ _ _ _ _ _ => v

def Node.name : Node → String
  | .mk _ v _ _ _ _ _ _ _ _ _ _ _ _ _ _ _ => v

def Node.type : Node → String
  | .mk _ _ v _ _ _ _ _ _ _ _ _ _ _ _ _ _ => v

def Node.hidden : Node → String
  | .mk _ _ _ v _ _ _ _ _ _ _ _ _ _ _ _ _ => v

def Node.targetId : Node → String
  | .mk _ _ _ _ v _ _ _ _ _ _ _ _ _ _ _ _ => v

def Node.comment : Node → String
  | .mk _ _ _ _ _ v _ _ _ _ _ _ _ _ _ _ _ => v

def Node.profiles : Node → List Profile
  | .mk _ _ _ _ _ _ v _ _ _ _ _ _ _ _ _ _ => v

def Node.costs : Node → List Cost
  | .mk _ _ _ _ _ _ _ v _ _ _ _ _ _ _ _ _ => v

def Node.constraints : Node → List Constraint
  | .mk _ _ _ _ _ _ _ _ v _ _ _ _ _ _ _ _ => v

def Node.modifiers : Node → List Modifier
  | .mk _ _ _ _ _ _ _ _ _ v _ _ _ _ _ _ _ => v

def Node.infoLinks : Node → List InfoLink
  | .mk _ _ _ _ _ _ _ _ _ _ v _ _ _ _ _ _ => v

def Node.categoryLinks : Node → List String
  | .mk _ _ _ _ _ _ _ _ _ _ _ v _ _ _ _ _ => v

def Node.selectionEntries : Node → NodeSeq
  | .mk _ _ _ _ _ _ _ _ _ _ _ _ v _ _ _ _ => v

def Node.selectionEntryGroups : Node → NodeSeq
  | .mk _ _ _ _ _ _ _ _ _ _ _ _ _ v _ _ _ => v

def Node.entryLinks : Node → NodeSeq
  | .mk _ _ _ _ _ _ _ _ _ _ _ _ _ _ v _ _ => v

def Node.sharedSelectionEntries : Node → NodeSeq
  | .mk _ _ _ _ _ _ _ _ _ _ _ _ _ _ _ v _ => v

def Node.sharedSelectionEntryGroups : Node → NodeSeq
  | .mk _ _ _ _ _ _ _ _ _ _ _ _ _ _ _ _ v => v

def NodeSeq.toList : NodeSeq → List Node
  | .nil => []
  | .cons hd tl => hd :: NodeSeq.toList tl

def NodeSeq.ofList : List Node → NodeSeq
  | [] => .nil
  | n :: rest => .cons n (NodeSeq.ofList rest)

def NodeSeq.mapNodes (f : Node → Node) : NodeSeq → NodeSeq
  | .nil => .nil
  | .cons hd tl => .cons (f hd) (NodeSeq.mapNodes f tl)

/-- A node with every attribute absent and every collection empty (used to
build wrapper objects the way the driver code does). -/
def emptyNode : Node :=
  .mk "" "" "" "" "" "" [] [] [] [] [] [] .nil .nil .nil .nil .nil

/-! ### Output records -/

/-- One emitted weapon profile. -/
structure Weapon where
  name : String
  type : String
  range : Option String
  attacks : String
  skill : String
  strength : Int
  ap : Int
  damage : String
  keywords : List String
deriving DecidableEq

/-- One emitted ability. -/
structure Ability where
  name : String
  type : String
  description : String
deriving DecidableEq

/-- One emitted points tier. -/
structure PointsTier where
  model_count : Int
  points : Int
deriving DecidableEq

/-- One emitted wargear option. -/
structure WargearOption where
  group_name : String
  name : String
  is_default : Bool
  points : Int
deriving DecidableEq

/-- One emitted enhancement. -/
structure Enhancement where
  name : String
  points : Int
  description : String
deriving DecidableEq

/-- One emitted detachment. -/
structure Detachment where
  name : String
  ruleText : String
  enhancements : List Enhancement
deriving DecidableEq

/-- One emitted unit record. -/
structure UnitRec where
  id : String
  name : String
  role : String
  movement : String
  toughness : Int
  save : String
  wounds : Int
  leadership : Int
  objective_control : Int
  keywords : List String
  is_unique : Bool
  points_tiers : List PointsTier
  weapons : List Weapon
  abilities : List Ability
  wargear_options : List WargearOption
deriving DecidableEq

/-! ### Characteristic parsing (`CHAR_IDS`, `parseCharacteristics`,
source lines 71-112) -/

/-- The `CHAR_IDS` table mapping characteristic type ids to stat names. -/
def charIdName : String → Option String
  | "e703-ecb6-5ce7-aec1" => some "M"
  | "d29d-cf75-fc2d-34a4" => some "T"
  | "450-a17e-9d5e-29da" => some "SV"
  | "750a-a2ec-90d3-21fe" => some "W"
  | "58d2-b879-49c7-43bc" => some "LD"
  | "bef7-942a-1a23-59f8" => some "OC"
  | "9896-9419-16a1-92fc" => some "Range"
  | "3bb-c35f-f54-fb08" => some "A"
  | "94d-8a98-cf90-183e" => some "BS"
  | "2229-f494-25db-c5d3" => some "S"
  | "9ead-8a10-520-de15" => some "AP"
  | "a354-c1c8-a745-f9e3" => some "D"
  | "7f1b-8591-2fcf-d01c" => some "Keywords"
  | "914c-b413-91e3-a132" => some "Range"
  | "2337-daa1-6682-b110" => some "A"
  | "95d1-95f-45b4-11d6" => some "WS"
  | "ab33-d393-96ce-ccba" => some "S"
  | "41a0-1301-112a-e2f2" => some "AP"
  | "3254-9fe6-d824-513e" => some "D"
  | "893f-9000-ccf7-648e" => some "Keywords"
  | "9b8f-694b-e5e-b573" => some "Description"
  | _ => none

/-- The characteristic map of a profile, as an assignment list: later
assignments are prepended, so a front-first lookup realises the JS object's
last-write-wins overwrite semantics. -/
abbrev Chars := List (String × String)

/-- `parseCharacteristics` (source lines 104-112). -/
def parseCharacteristics (p : Profile) : Chars :=
  p.characteristics.foldl
    (fun m c => (strOr (charIdName c.typeId) c.name, c.text) :: m) []

/-- JS property read `chars[k]` on the characteristic map. -/
def charsGet (m : Chars) (k : String) : Option String :=
  (m.find? (fun e => e.1 == k)).map (fun e => e.2)

/-- JS `parseInt(chars.X) || d` where `chars.X` may be absent. -/
def jsIntOrO (o : Option String) (d : Int) : Int := jsIntOr (o.getD "") d

/-! ### Entry index (`buildEntryIndex`, source lines 118-153)

The JS walk keeps a `Map`; we keep an association list to which new entries
are prepended, with a front-first lookup, so a later `set` of the same id
shadows the earlier one exactly as the `Map` does.  The walk recurses into
the node-valued collections; the wrapper-object indirection of the JS code
(`node.selectionEntries.selectionEntry` etc.) is already collapsed in the
`Node` model. -/

abbrev EntryIndex := List (String × Node)

mutual
/-- The walk of `buildEntryIndex`: index this node if it has both an id and
a name, then recurse into its entry and group collections, including the
shared pools. -/
def walkIndex : EntryIndex → Node → EntryIndex
  | idx, n@(.mk id name _ _ _ _ _ _ _ _ _ _ sE sG _ shE shG) =>
    let idx := if !(id == "") && !(name == "") then (id, n) :: idx else idx
    walkIndexSeq (walkIndexSeq (walkIndexSeq (walkIndexSeq idx sE) sG) shE) shG

def walkIndexSeq : EntryIndex → NodeSeq → EntryIndex
  | idx, .nil => idx
  | idx, .cons hd tl => walkIndexSeq (walkIndex idx hd) tl
end

/-- `buildEntryIndex` (source lines 118-153). -/
def buildEntryIndex (root : Node) : EntryIndex := walkIndex [] root

/-- `entryIndex.get(targetId)`. -/
def idxLookup (idx : EntryIndex) (k : String) : Option Node :=
  (idx.find? (fun e => e.1 == k)).map (fun e => e.2)

/-! ### Weapon extraction (`extractWeapons`, source lines 159-207)

The JS function guards with `if (depth > 6) return []` and every recursive
call passes `depth + 1`.  We realise it as a structurally recursive function
on the remaining budget `7 - depth`: at `depth > 6` the budget is `0` and
the call returns `[]`, and one recursive step at `depth + 1` is one budget
decrement, so the two presentations compute the same lists. -/

/-- Keyword field handling: split on commas, trim, drop empty and `"-"`
placeholders. -/
def parseWeaponKeywords (kw : String) : List String :=
  ((jsSplitChar ',' kw).map jsTrim).filter (fun k => !(k == "") && !(k == "-"))

/-- The `Weapon` record built from one ranged/melee weapon profile. -/
def weaponOfProfile (p : Profile) : Weapon :=
  let chars := parseCharacteristics p
  { name := p.name
    type := if p.typeName == "Ranged Weapons" then "ranged" else "melee"
    range :=
      if p.typeName == "Ranged Weapons" then strOrNull (charsGet chars "Range")
      else none
    attacks := strOr (charsGet chars "A") "1"
    skill := strOr (charsGet chars "BS") (strOr (charsGet chars "WS") "4+")
    strength := jsIntOrO (charsGet chars "S") 4
    ap := jsIntOrO (charsGet chars "AP") 0
    damage := strOr (charsGet chars "D") "1"
    keywords := parseWeaponKeywords (strOr (charsGet chars "Keywords") "") }

/-- Budgeted core of `extractWeapons`: direct profiles, then child entries,
then child groups, then entry links (resolved target first, then the link
node itself). -/
def extractWeaponsGo : Nat → EntryIndex → Node → List Weapon
  | 0, _, _ => []
  | fuel + 1, idx, n =>
    let direct := (n.profiles.filter
      (fun p => p.typeName == "Ranged Weapons" || p.typeName == "Melee Weapons")).map
        weaponOfProfile
    let ws := direct ++ (n.selectionEntries.toList.flatMap (extractWeaponsGo fuel idx))
    let ws := ws ++ (n.selectionEntryGroups.toList.flatMap (extractWeaponsGo fuel idx))
    ws ++ (n.entryLinks.toList.flatMap fun link =>
      (match idxLookup idx link.targetId with
       | some target => extractWeaponsGo fuel idx target
       | none => []) ++ extractWeaponsGo fuel idx link)

/-- `extractWeapons` (source lines 159-207), with the source's `depth`
parameter. -/
def extractWeapons (n : Node) (idx : EntryIndex) (depth : Nat) : List Weapon :=
  extractWeaponsGo (7 - depth) idx n

/-! ### Ability extraction (`extractAbilities`, source lines 212-256) -/

/-- The fixed list of core ability names. -/
def coreAbilityNames : List String :=
  ["deep strike", "deadly demise", "feel no pain", "firing deck",
   "leader", "lone operative", "scouts", "stealth", "infiltrators",
   "objective secured"]

/-- The fixed list of faction ability names. -/
def factionAbilityNames : List String :=
  ["oath of moment", "waaagh!", "power of the machine spirit",
   "power from pain", "strands of fate", "voice of the hive mind",
   "harbingers of dread", "shadow in the warp"]

/-- After the `\s*` of the invulnerable-save pattern: skip whitespace, then
require the literal `invuln`. -/
def invulnAfterWs (l : List Char) : Bool :=
  listStartsWith (l.dropWhile Char.isWhitespace) "invuln".data

/-- Does the pattern `\d\+\s*invuln` match at the head of `l`? -/
def invulnPatHere : List Char → Bool
  | d :: '+' :: rest => d.isDigit && invulnAfterWs rest
  | _ => false

/-- JS `nameLower.match(/\d\+\s*invuln/)`: the pattern matches somewhere. -/
def hasInvulnPat : List Char → Bool
  | [] => false
  | c :: rest => invulnPatHere (c :: rest) || hasInvulnPat rest

/-- The ability classification of source lines 222-234. -/
def classifyAbilityType (name : String) : String :=
  let nameLower := asciiLower name
  if jsIncludes nameLower "invulnerable" || hasInvulnPat nameLower.data then
    "invulnerable"
  else if coreAbilityNames.any (fun core => jsIncludes nameLower (asciiLower core)) then
    "core"
  else if factionAbilityNames.any (fun f => jsIncludes nameLower (asciiLower f)) then
    "faction"
  else "unique"

/-- The abilities found in full `Abilities` profiles directly on the node
(first loop of `extractAbilities`, source lines 215-238). -/
def profileAbilities (n : Node) : List Ability :=
  (n.profiles.filter (fun p => p.typeName == "Abilities")).map fun p =>
    { name := p.name
      type := classifyAbilityType p.name
      description := strOr (charsGet (parseCharacteristics p) "Description") "" }

/-- The allow-list for abilities contributed by `rule` info links. -/
def ruleAllowNames : List String := ["oath of moment", "templar vows"]

/-- One step of the `infoLinks` pass of `extractAbilities`
(source lines 241-253). -/
def infoLinkStep (abilities : List Ability) (link : InfoLink) : List Ability :=
  if link.type == "rule" then
    if link.name == "" then abilities
    else
      if ruleAllowNames.any (fun f => jsIncludes (asciiLower link.name) (asciiLower f)) then
        if abilities.any (fun a => asciiLower a.name == asciiLower link.name) then abilities
        else abilities ++ [⟨link.name, "faction", ""⟩]
      else abilities
  else abilities

/-- `extractAbilities` (source lines 212-256): profile abilities, then the
`infoLinks` pass that may append allow-listed faction abilities not already
present by case-insensitive name. -/
def extractAbilities (n : Node) : List Ability :=
  n.infoLinks.foldl infoLinkStep (profileAbilities n)

/-! ### Stat-line extraction (`extractStats`, source lines 261-282) -/

mutual
/-- `extractStats`: first `Unit` profile on the node, else depth-first
through child selection entries, else through the entries of child groups. -/
def extractStats : Node → Option Chars
  | .mk _ _ _ _ _ _ profiles _ _ _ _ _ sEntries sGroups _ _ _ =>
    match profiles.find? (fun p => p.typeName == "Unit") with
    | some p => some (parseCharacteristics p)
    | none =>
      match extractStatsSeq sEntries with
      | some s => some s
      | none => extractStatsGroups sGroups

/-- The child-entry loop of `extractStats` (source lines 270-273). -/
def extractStatsSeq : NodeSeq → Option Chars
  | .nil => none
  | .cons hd tl =>
    match extractStats hd with
    | some s => some s
    | none => extractStatsSeq tl

/-- The group loop of `extractStats` (source lines 274-279): only the
`selectionEntries` of each group are searched. -/
def extractStatsGroups : NodeSeq → Option Chars
  | .nil => none
  | .cons (.mk _ _ _ _ _ _ _ _ _ _ _ _ gEntries _ _ _ _) tl =>
    match extractStatsSeq gEntries with
    | some s => some s
    | none => extractStatsGroups tl
end

/-! ### Points-tier extraction (`extractPointsTiers`, source lines 288-342) -/

/-- The points cost field id tested by modifier records. -/
def pointsFieldId : String := "51b2-306e-1021-d207"

/-- The base points loop (source lines 292-297): last `pts` cost wins. -/
def basePointsOf (n : Node) : Int :=
  n.costs.foldl (fun bp c => if c.name == "pts" then jsIntOr c.value 0 else bp) 0

/-- The min/max model-count loop over group constraints
(source lines 299-313).  The second component (`maxModels`) is computed by
the source but never read afterwards. -/
def minMaxStep (st : Int × Int) (c : Constraint) : Int × Int :=
  let mn := if c.type == "min" && c.field == "selections" then jsIntOr c.value 1 else st.1
  let mx :=
    if c.type == "max" && c.field == "selections" then
      match jsParseInt c.value with
      | some v => if v > 0 then v else st.2
      | none => st.2
    else st.2
  (mn, mx)

def minMaxModels (n : Node) : Int × Int :=
  n.selectionEntryGroups.toList.foldl
    (fun st g => g.constraints.foldl minMaxStep st) (1, 1)

/-- The base tier of `extractPointsTiers` (source lines 316-318): minimum
model count (`minModels || 1`) at the base cost, when that cost is
positive. -/
def baseTiers (n : Node) : List PointsTier :=
  if basePointsOf n > 0 then
    [⟨if (minMaxModels n).1 = 0 then 1 else (minMaxModels n).1, basePointsOf n⟩]
  else []

/-- One condition of a points modifier (source lines 325-332): an
`atLeast`/`selections` condition with positive threshold and positive new
cost contributes a tier.  The source's `newPts` and `modelThreshold`
constants are inlined. -/
def tierCondStep (m : Modifier) (ts : List PointsTier) (cond : Condition) :
    List PointsTier :=
  if cond.type == "atLeast" && cond.field == "selections" then
    if jsIntOr m.value 0 > 0 && jsIntOr cond.value 0 > 0 then
      ts ++ [⟨jsIntOr cond.value 0, jsIntOr m.value 0⟩]
    else ts
  else ts

/-- One points modifier (source lines 321-334): only modifiers of the `pts`
field id contribute. -/
def tierModStep (ts : List PointsTier) (m : Modifier) : List PointsTier :=
  if m.field == pointsFieldId then m.conditions.foldl (tierCondStep m) ts
  else ts

/-- `extractPointsTiers` (source lines 288-342). -/
def extractPointsTiers (n : Node) : List PointsTier :=
  let tiers := n.modifiers.foldl tierModStep (baseTiers n)
  -- source lines 336-339: fallback tier, only reachable when the base cost
  -- is not positive (a positive base cost already pushed the base tier),
  -- hence never taken
  if tiers.isEmpty && basePointsOf n > 0 then [⟨1, basePointsOf n⟩] else tiers

/-! ### Role / keywords / uniqueness (source lines 347-395) -/

/-- The `ROLE_CATEGORIES` table. -/
def roleCategory : String → Option String
  | "Epic Hero" => some "epic_hero"
  | "Character" => some "character"
  | "Battleline" => some "battleline"
  | "Infantry" => some "infantry"
  | "Mounted" => some "mounted"
  | "Beast" => some "beast"
  | "Vehicle" => some "vehicle"
  | "Monster" => some "monster"
  | "Fortification" => some "fortification"
  | "Dedicated Transport" => some "dedicated_transport"
  | "Allied Units" => some "allied"
  | _ => none

/-- The `ROLE_PRIORITY` order. -/
def rolePriority : List String :=
  ["epic_hero", "character", "battleline", "dedicated_transport",
   "fortification", "monster", "vehicle", "beast", "mounted", "infantry"]

/-- `extractRole` (source lines 347-363): first priority role among the
mapped category links, defaulting to `infantry`. -/
def extractRole (n : Node) : String :=
  (rolePriority.find? fun r =>
    n.categoryLinks.any (fun cname => roleCategory cname == some r)).getD "infantry"

/-- `extractKeywords` (source lines 368-378). -/
def extractKeywords (n : Node) : List String :=
  n.categoryLinks.filter fun nm =>
    !(nm == "") && !(jsStartsWith nm "Faction:") &&
      !(jsStartsWith nm "Configuration") && !(nm == "Grenades")

/-- `isUniqueUnit` (source lines 383-395). -/
def isUniqueUnit (n : Node) : Bool :=
  extractRole n == "epic_hero" ||
    n.constraints.any fun c =>
      c.type == "max" && c.value == "1" && c.scope == "roster" && c.field == "selections"

/-! ### Wargear options (`extractWargearOptions`, source lines 401-485) -/

/-- The repeated `pts` cost loop of the wargear/enhancement extractors. -/
def ptsOfCosts (costs : List Cost) : Int :=
  costs.foldl (fun pts c => if c.name == "pts" then jsIntOr c.value 0 else pts) 0

/-- Direct upgrade entries of the `Wargear` group (source lines 408-424):
one option each, the first one default. -/
def wargearDirectEntries (opts : List WargearOption) (group : Node) : List WargearOption :=
  let directEntries := group.selectionEntries.toList.filter (fun e => e.type == "upgrade")
  -- the JS guards the forEach with `directEntries.length > 0`, which is a no-op
  opts ++ directEntries.enum.map fun p =>
    { group_name := "Wargear"
      name := p.2.name
      is_default := p.1 == 0
      points := ptsOfCosts p.2.costs }

/-- One direct link of the `Wargear` group (source lines 427-439). -/
def wargearWGLinkStep (opts : List WargearOption) (link : Node) : List WargearOption :=
  if link.name == "" then opts
  else
    opts ++ [{ group_name := "Wargear"
               name := link.name
               is_default := opts.countP (fun o => o.group_name == "Wargear") == 0
               points := ptsOfCosts link.costs }]

/-- Direct links of the `Wargear` group (source lines 426-440): default only
when the group holds no option yet. -/
def wargearGroupLinks (opts : List WargearOption) (group : Node) : List WargearOption :=
  group.entryLinks.toList.foldl wargearWGLinkStep opts

/-- One direct entry of a wargear sub-group (source lines 447-460): pushes
upgrade-type entries, the running `sgIdx` making the first one default. -/
def wargearSubgroupEntryStep (sgName : String) (st : List WargearOption × Nat)
    (e : Node) : List WargearOption × Nat :=
  if e.type == "upgrade" then
    (st.1 ++ [{ group_name := sgName
                name := e.name
                is_default := st.2 == 0
                points := ptsOfCosts e.costs }], st.2 + 1)
  else st

/-- One link of a wargear sub-group (source lines 463-480).  Source line 467
falls back to the index target's name, but only when the (already known to
be non-empty) link name is empty. -/
def wargearSubgroupLinkStep (idx : EntryIndex) (sgName : String)
    (opts : List WargearOption) (link : Node) : List WargearOption :=
  if link.name == "" then opts
  else
    let targetName :=
      if link.name == "" then
        match idxLookup idx link.targetId with
        | some t => t.name
        | none => ""
      else link.name
    if targetName == "" then opts
    else
      opts ++ [{ group_name := sgName
                 name := targetName
                 is_default := opts.countP (fun o => o.group_name == sgName) == 0
                 points := ptsOfCosts link.costs }]

/-- One sub-group of the `Wargear` group (source lines 442-481): its own
group name, entries counted by a running `sgIdx`, links defaulting only when
the sub-group's name holds no option yet. -/
def wargearSubgroup (idx : EntryIndex) (opts : List WargearOption) (subgroup : Node) :
    List WargearOption :=
  let sgName := if subgroup.name == "" then "Wargear" else subgroup.name
  let st := subgroup.selectionEntries.toList.foldl
    (wargearSubgroupEntryStep sgName) (opts, 0)
  subgroup.entryLinks.toList.foldl (wargearSubgroupLinkStep idx sgName) st.1

/-- One `Wargear`-named group of the unit (source lines 404-482). -/
def wargearGroupStep (idx : EntryIndex) (opts : List WargearOption) (group : Node) :
    List WargearOption :=
  if !(group.name == "Wargear") then opts
  else
    let opts := wargearDirectEntries opts group
    let opts := wargearGroupLinks opts group
    group.selectionEntryGroups.toList.foldl (wargearSubgroup idx) opts

/-- `extractWargearOptions` (source lines 401-485). -/
def extractWargearOptions (n : Node) (idx : EntryIndex) : List WargearOption :=
  n.selectionEntryGroups.toList.foldl (wargearGroupStep idx) []

/-! ### Unit discovery (`findUnits` inside `parseCatalog`,
source lines 658-765) -/

/-- The weapon dedup map of source lines 682-687 and 731-735: a `Map` keyed
by `` `${name}|${type}` `` keeping the first record per key, iterated in
insertion order. -/
def dedupWeaponsGo (seen : List String) : List Weapon → List Weapon
  | [] => []
  | w :: rest =>
    let key := w.name ++ "|" ++ w.type
    if seen.contains key then dedupWeaponsGo seen rest
    else w :: dedupWeaponsGo (key :: seen) rest

/-- Weapon list dedup by `name|type` key, first occurrence wins. -/
def dedupWeapons (ws : List Weapon) : List Weapon := dedupWeaponsGo [] ws

/-- The unit record pushed by `findUnits` (source lines 689-705 / 737-753). -/
def buildUnit (facName : String) (idx : EntryIndex) (entry : Node)
    (unitName : String) (stats : Chars) (tiers : List PointsTier) : UnitRec :=
  { id := uuidFromSeed ("unit:" ++ facName ++ ":" ++ unitName)
    name := unitName
    role := extractRole entry
    movement := strOr (charsGet stats "M") "6\""
    toughness := jsIntOrO (charsGet stats "T") 4
    save := strOr (charsGet stats "SV") "3+"
    wounds := jsIntOrO (charsGet stats "W") 1
    leadership := jsIntOrO (charsGet stats "LD") 6
    objective_control := jsIntOrO (charsGet stats "OC") 1
    keywords := extractKeywords entry
    is_unique := isUniqueUnit entry
    points_tiers := tiers
    weapons := dedupWeapons (extractWeapons entry idx 0)
    abilities := extractAbilities entry
    wargear_options := extractWargearOptions entry idx }

/-- `findUnits` state: the `seenUnitNames` set and the `units` array. -/
abbrev FindState := List String × List UnitRec

/-- The common tail of both `findUnits` branches (source lines 665-705 and
714-753): skip unnamed, already-seen, stat-less and tier-less entries,
otherwise record the name as seen and push the unit record. -/
def admitUnit (fac : String) (idx : EntryIndex) (st : FindState) (entry : Node)
    (unitName : String) : FindState :=
  if unitName == "" || st.1.contains unitName then st
  else
    match extractStats entry with
    | none => st
    | some stats =>
      if (extractPointsTiers entry).isEmpty then st
      else (unitName :: st.1,
        st.2 ++ [buildUnit fac idx entry unitName stats (extractPointsTiers entry)])

/-- The direct selection-entry branch of `findUnits` (source lines 659-707):
admit `unit` entries, and `model` entries with a direct positive `pts` cost,
that are not flagged hidden. -/
def processEntry (fac : String) (idx : EntryIndex) (st : FindState) (entry : Node) :
    FindState :=
  if (entry.type == "unit" ||
      (entry.type == "model" &&
        entry.costs.any (fun c => c.name == "pts" && jsIntPos c.value))) &&
      !(jsIncludes entry.hidden "true") then
    admitUnit fac idx st entry entry.name
  else st

/-- The entry-link branch of `findUnits` (source lines 710-755): resolve the
target through the entry index and admit `unit` or `model` targets (note:
this branch tests neither the hidden flag nor a direct cost). -/
def processLink (fac : String) (idx : EntryIndex) (st : FindState) (link : Node) :
    FindState :=
  match idxLookup idx link.targetId with
  | none => st
  | some target =>
    if target.type == "unit" || target.type == "model" then
      admitUnit fac idx st target (if target.name == "" then link.name else target.name)
    else st

/-- One `findUnits(node)` call: the direct entries of the node, then its
entry links. -/
def findUnitsOn (fac : String) (idx : EntryIndex) (st : FindState) (node : Node) :
    FindState :=
  let st := node.selectionEntries.toList.foldl (processEntry fac idx) st
  node.entryLinks.toList.foldl (processLink fac idx) st

/-- The faction-name cleanup of source lines 640-647. -/
def factionNameClean (catName : String) : String :=
  let s := jsStripAnchoredPrefix catName "Imperium - "
  let s := jsStripAnchoredPrefix s "Chaos - "
  let s := jsStripAnchoredPrefix s "Aeldari - "
  let s := jsStripAnchoredSuffix s " - Library"
  let s := jsStripAnchoredPrefix s "Adeptus Astartes - "
  let s := jsStripAnchoredPrefix s "Xenos - "
  jsStripAnchoredSuffix s " Library"

/-- The wrapper object of source line 763:
`{ selectionEntries: catalog.sharedSelectionEntries }`. -/
def sharedWrapper (c : Node) : Node :=
  .mk "" "" "" "" "" "" [] [] [] [] [] [] c.sharedSelectionEntries .nil .nil .nil .nil

/-- The unit list produced for one catalog document by `parseCatalog`
(source lines 628-773): `findUnits(catalog)` followed by
`findUnits({selectionEntries: catalog.sharedSelectionEntries})`
(the latter is a no-op when the shared pool is empty, so the source's
existence guard is dropped). -/
def catalogUnits (c : Node) : List UnitRec :=
  let idx := buildEntryIndex c
  let factionName := factionNameClean c.name
  let st := findUnitsOn factionName idx ([], []) c
  (findUnitsOn factionName idx st (sharedWrapper c)).2

/-! ### Multi-document merge (main loop, source lines 917-947) -/

/-- The id override of source line 936. -/
def rebaseUnit (fac : String) (u : UnitRec) : UnitRec :=
  { u with id := uuidFromSeed ("unit:" ++ fac ++ ":" ++ u.name) }

/-- The unit merge loop (source lines 932-939), recursing over the
concatenated unit lists of the faction's documents with the
`seenUnitNames` set. -/
def mergeUnitsGo (fac : String) (seen : List String) : List UnitRec → List UnitRec
  | [] => []
  | u :: rest =>
    if seen.contains u.name then mergeUnitsGo fac seen rest
    else rebaseUnit fac u :: mergeUnitsGo fac (u.name :: seen) rest

/-- Merge of the per-document unit lists of one faction. -/
def mergeUnits (fac : String) (docs : List (List UnitRec)) : List UnitRec :=
  mergeUnitsGo fac [] docs.flatten

/-- The detachment merge loop (source lines 941-946): keep a detachment
only when no already-merged detachment has its name. -/
def mergeDetachmentsGo (acc : List Detachment) : List Detachment → List Detachment
  | [] => acc
  | d :: rest =>
    if acc.any (fun x => x.name == d.name) then mergeDetachmentsGo acc rest
    else mergeDetachmentsGo (acc ++ [d]) rest

/-- Merge of the per-document detachment lists of one faction. -/
def mergeDetachments (docs : List (List Detachment)) : List Detachment :=
  mergeDetachmentsGo [] docs.flatten

/-! ### Enhancement attribution (`extractDetachments` inner loop,
source lines 584-613) -/

/-- The attribution test for one enhancement entry against one detachment:
`groupMatchesDet || commentMatchesDet` of source lines 588-594.  The first
substring direction uses the unstripped group name; only the second
direction strips the first occurrence of `" enhancements"`. -/
def enhMatches (detName enhGroupName comment : String) : Bool :=
  let detNameLower := asciiLower detName
  let groupName := asciiLower enhGroupName
  let groupMatchesDet :=
    jsIncludes groupName detNameLower ||
      jsIncludes detNameLower (jsRemoveFirst groupName " enhancements")
  let c := asciiLower comment
  let commentMatchesDet := !(c == "") && c == detNameLower
  groupMatchesDet || commentMatchesDet

/-- The `Enhancement` record built from one matched entry
(source lines 595-610). -/
def enhancementOfEntry (e : Node) : Enhancement :=
  { name := e.name
    points := ptsOfCosts e.costs
    description := e.profiles.foldl
      (fun desc p =>
        if p.typeName == "Abilities" then
          strOr (charsGet (parseCharacteristics p) "Description") ""
        else desc) "" }

/-- The enhancement list attributed to one detachment name by the loop of
source lines 584-613, given the discovered enhancement groups. -/
def detachmentEnhancements (detName : String) (enhancementGroups : List Node) :
    List Enhancement :=
  enhancementGroups.foldl
    (fun enhs enhGroup =>
      enhGroup.selectionEntries.toList.foldl
        (fun enhs enhEntry =>
          if enhMatches detName enhGroup.name enhEntry.comment then
            enhs ++ [enhancementOfEntry enhEntry]
          else enhs)
        enhs)
    []

/-- The attribution rule as the specification words it: the group name with
an `" Enhancements"` suffix stripped matches (case-insensitively, either
direction as a substring) the detachment name, or the comment equals the
detachment name case-insensitively. -/
def specEnhMatchC6 (detName enhGroupName comment : String) : Bool :=
  let detNameLower := asciiLower detName
  let groupStripped := jsStripAnchoredSuffix (asciiLower enhGroupName) " enhancements"
  jsIncludes groupStripped detNameLower || jsIncludes detNameLower groupStripped ||
    asciiLower comment == detNameLower

/-! ### Max-constraint erasure (for the non-interference statement about
`extractPointsTiers`) -/

/-- Drop every `max`/`selections` constraint from a group node. -/
def scrubGroupMaxSel : Node → Node
  | .mk id name type hidden targetId comment profiles costs constraints modifiers
      infoLinks categoryLinks sE sG eL shE shG =>
    .mk id name type hidden targetId comment profiles costs
      (constraints.filter (fun c => !(c.type == "max" && c.field == "selections")))
      modifiers infoLinks categoryLinks sE sG eL shE shG

/-- Drop every group-level `max`/`selections` constraint from a unit entry
node (the only place `extractPointsTiers` reads constraints). -/
def scrubMaxSel : Node → Node
  | .mk id name type hidden targetId comment profiles costs constraints modifiers
      infoLinks categoryLinks sE sG eL shE shG =>
    .mk id name type hidden targetId comment profiles costs constraints modifiers
      infoLinks categoryLinks sE (sG.mapNodes scrubGroupMaxSel) eL shE shG

/-! ### Concrete documents and nodes used by the witnesses and
counterexamples below -/

/-- A stat profile of type `Unit` with no characteristics. -/
def unitProfile (nm : String) : Profile :=
  { name := nm, typeName := "Unit", characteristics := [] }

/-- C2: a hidden `unit` entry sitting in the shared pool. -/
def phantomT : Node :=
  .mk "T1" "Phantom" "unit" "true" "" "" [unitProfile "Phantom"] [⟨"pts", "100"⟩]
    [] [] [] [] .nil .nil .nil .nil .nil

/-- C2: a top-level entry link pointing at the hidden shared entry. -/
def linkT : Node :=
  .mk "" "" "" "" "T1" "" [] [] [] [] [] [] .nil .nil .nil .nil .nil

/-- C2 counterexample document: no direct entries, one top-level link whose
target is hidden. -/
def cat2 : Node :=
  .mk "" "SomeFaction" "" "" "" "" [] [] [] [] [] [] .nil .nil
    (.cons linkT .nil) (.cons phantomT .nil) .nil

/-- C2 witness: a visible direct `unit` entry. -/
def visibleE : Node :=
  .mk "" "Visible" "unit" "" "" "" [unitProfile "Visible"] [⟨"pts", "50"⟩]
    [] [] [] [] .nil .nil .nil .nil .nil

/-- C2 witness document with one visible direct entry. -/
def cat2w : Node :=
  .mk "" "OtherFaction" "" "" "" "" [] [] [] [] [] []
    (.cons visibleE .nil) .nil .nil .nil .nil

/-- C2 witness: the unit record emitted for `visibleE`. -/
def visibleUnit : UnitRec :=
  buildUnit "OtherFaction" (buildEntryIndex cat2w) visibleE "Visible"
    (parseCharacteristics (unitProfile "Visible")) (extractPointsTiers visibleE)

/-- C3: a model-count group carrying a `min 5` selections constraint. -/
def grp3 : Node :=
  .mk "" "G" "" "" "" "" [] [] [⟨"min", "selections", "", "5"⟩] [] [] []
    .nil .nil .nil .nil .nil

/-- C3 counterexample entry: base cost 90 at minimum 5 models, plus a points
modifier whose `atLeast 5` threshold coincides with the minimum. -/
def squad3 : Node :=
  .mk "" "Squad" "unit" "" "" "" [unitProfile "Squad"] [⟨"pts", "90"⟩] []
    [⟨pointsFieldId, "100", [⟨"atLeast", "selections", "5"⟩]⟩] [] []
    .nil (.cons grp3 .nil) .nil .nil .nil

/-- C3 counterexample document. -/
def cat3 : Node :=
  .mk "" "F" "" "" "" "" [] [] [] [] [] [] (.cons squad3 .nil) .nil .nil .nil .nil

/-- C3 witness: the unit record emitted for `squad3`. -/
def squad3Unit : UnitRec :=
  buildUnit "F" (buildEntryIndex cat3) squad3 "Squad"
    (parseCharacteristics (unitProfile "Squad")) (extractPointsTiers squad3)

/-- C4: a ranged weapon profile with no characteristics. -/
def wProfA : Profile := { name := "Gun A", typeName := "Ranged Weapons", characteristics := [] }

/-- C4: a melee weapon profile with no characteristics. -/
def wProfB : Profile := { name := "Gun B", typeName := "Melee Weapons", characteristics := [] }

/-- C4: link to entry `B`. -/
def linkToB : Node := .mk "" "" "" "" "B" "" [] [] [] [] [] [] .nil .nil .nil .nil .nil

/-- C4: link to entry `A`. -/
def linkToA : Node := .mk "" "" "" "" "A" "" [] [] [] [] [] [] .nil .nil .nil .nil .nil

/-- C4: entry `A`, holding one weapon profile and a link to `B`. -/
def nodeA : Node :=
  .mk "A" "A" "" "" "" "" [wProfA] [] [] [] [] [] .nil .nil (.cons linkToB .nil) .nil .nil

/-- C4: entry `B`, holding one weapon profile and a link back to `A`. -/
def nodeB : Node :=
  .mk "B" "B" "" "" "" "" [wProfB] [] [] [] [] [] .nil .nil (.cons linkToA .nil) .nil .nil

/-- C4: the entry index of the two-node cycle `A → B → A`. -/
def cycIdx : EntryIndex := [("A", nodeA), ("B", nodeB)]

/-- C4: the weapon record of `wProfA` (all characteristics defaulted). -/
def gunA : Weapon := weaponOfProfile wProfA

/-- C4: the weapon record of `wProfB`. -/
def gunB : Weapon := weaponOfProfile wProfB

/-- C5 witness: document A's version of unit `X`. -/
def uX1 : UnitRec :=
  { id := "idA", name := "X", role := "infantry", movement := "6\"", toughness := 4,
    save := "3+", wounds := 1, leadership := 6, objective_control := 1, keywords := [],
    is_unique := false, points_tiers := [⟨1, 100⟩], weapons := [], abilities := [],
    wargear_options := [] }

/-- C5 witness: document B's version of unit `X` (different cost). -/
def uX2 : UnitRec :=
  { id := "idB", name := "X", role := "infantry", movement := "6\"", toughness := 4,
    save := "3+", wounds := 1, leadership := 6, objective_control := 1, keywords := [],
    is_unique := false, points_tiers := [⟨1, 120⟩], weapons := [], abilities := [],
    wargear_options := [] }

/-- C5 witness: document C's version of detachment `D`. -/
def dX1 : Detachment := { name := "D", ruleText := "rules one", enhancements := [] }

/-- C5 witness: document D's version of detachment `D`. -/
def dX2 : Detachment := { name := "D", ruleText := "rules two", enhancements := [] }

/-- C6: an enhancement entry named `Sigil` with no comment. -/
def sigilE : Node := .mk "" "Sigil" "" "" "" "" [] [] [] [] [] [] .nil .nil .nil .nil .nil

/-- C6 counterexample: an enhancement group named `ab enhancements`. -/
def enhGroupAbE : Node :=
  .mk "" "ab enhancements" "" "" "" "" [] [] [] [] [] []
    (.cons sigilE .nil) .nil .nil .nil .nil

/-- C6: an enhancement entry named `E1` with no comment. -/
def e1E : Node := .mk "" "E1" "" "" "" "" [] [] [] [] [] [] .nil .nil .nil .nil .nil

/-- C6: the spec's `Index Raiders Enhancements` group. -/
def enhGroupIR : Node :=
  .mk "" "Index Raiders Enhancements" "" "" "" "" [] [] [] [] [] []
    (.cons e1E .nil) .nil .nil .nil .nil

/-- C6: the spec's unrelated `Oath of Moment` group. -/
def enhGroupOath : Node :=
  .mk "" "Oath of Moment" "" "" "" "" [] [] [] [] [] []
    (.cons e1E .nil) .nil .nil .nil .nil

/-- C7: an upgrade-type wargear entry. -/
def upEntry (nm : String) : Node :=
  .mk "" nm "upgrade" "" "" "" [] [] [] [] [] [] .nil .nil .nil .nil .nil

/-- C7: first sub-group named `W` with one upgrade entry. -/
def subW1 : Node :=
  .mk "" "W" "" "" "" "" [] [] [] [] [] [] (.cons (upEntry "OptA") .nil) .nil .nil .nil .nil

/-- C7: second sub-group, also named `W`, holding an upgrade entry with the
same name `OptA` as the first sub-group's entry. -/
def subW2 : Node :=
  .mk "" "W" "" "" "" "" [] [] [] [] [] [] (.cons (upEntry "OptA") .nil) .nil .nil .nil .nil

/-- C7 counterexample: a `Wargear` group holding two same-named sub-groups. -/
def wgGroup : Node :=
  .mk "" "Wargear" "" "" "" "" [] [] [] [] [] [] .nil
    (.cons subW1 (.cons subW2 .nil)) .nil .nil .nil

/-- C7 counterexample unit entry. -/
def unit7 : Node :=
  .mk "" "U" "unit" "" "" "" [] [] [] [] [] [] .nil (.cons wgGroup .nil) .nil .nil .nil

/-- C8: a shared weapon entry holding the same `Bolter` profile reachable by
cross-reference. -/
def bolterProfile : Profile :=
  { name := "Bolter", typeName := "Ranged Weapons", characteristics := [] }

/-- C8: shared weapon entry. -/
def sharedBolter : Node :=
  .mk "WB" "Shared Bolter" "upgrade" "" "" "" [bolterProfile] [] [] [] [] []
    .nil .nil .nil .nil .nil

/-- C8: link from the unit entry to the shared weapon entry. -/
def linkToBolter : Node :=
  .mk "" "" "" "" "WB" "" [] [] [] [] [] [] .nil .nil .nil .nil .nil

/-- C8 witness entry: carries the `Bolter` profile directly and once more
through a cross-reference. -/
def unit8 : Node :=
  .mk "" "Squad8" "unit" "" "" "" [unitProfile "Squad8", bolterProfile] [⟨"pts", "80"⟩]
    [] [] [] [] .nil .nil (.cons linkToBolter .nil) .nil .nil

/-- C8 witness document. -/
def cat8 : Node :=
  .mk "" "F8" "" "" "" "" [] [] [] [] [] [] (.cons unit8 .nil) .nil .nil
    (.cons sharedBolter .nil) .nil

/-- C8: the unit record emitted for `unit8`. -/
def unit8Rec : UnitRec :=
  buildUnit "F8" (buildEntryIndex cat8) unit8 "Squad8"
    (parseCharacteristics (unitProfile "Squad8")) (extractPointsTiers unit8)

/-- C9: an `Abilities` profile named `Oath of Moment` with a description. -/
def abProfile9 : Profile :=
  { name := "Oath of Moment", typeName := "Abilities",
    characteristics := [⟨"9b8f-694b-e5e-b573", "", "some text"⟩] }

/-- C9 witness entry: one full ability profile plus two `rule` info links,
one colliding with the profile ability by name and one not. -/
def n9 : Node :=
  .mk "" "U9" "unit" "" "" "" [abProfile9] [] [] []
    [⟨"rule", "Templar Vows"⟩, ⟨"rule", "Oath of Moment"⟩] []
    .nil .nil .nil .nil .nil

/-- C10: a group with `min 5` and `max 10` selections constraints. -/
def gmax : Node :=
  .mk "" "G" "" "" "" "" [] []
    [⟨"min", "selections", "", "5"⟩, ⟨"max", "selections", "", "10"⟩]
    [] [] [] .nil .nil .nil .nil .nil

/-- C10: the same group without the max constraint. -/
def gnomax : Node :=
  .mk "" "G" "" "" "" "" [] [] [⟨"min", "selections", "", "5"⟩] [] [] []
    .nil .nil .nil .nil .nil

/-- C10 witness entry with the max constraint present. -/
def n10a : Node :=
  .mk "" "S" "unit" "" "" "" [] [⟨"pts", "90"⟩] [] [] [] []
    .nil (.cons gmax .nil) .nil .nil .nil

/-- C10 witness entry with the max constraint absent. -/
def n10b : Node :=
  .mk "" "S" "unit" "" "" "" [] [⟨"pts", "90"⟩] [] [] [] []
    .nil (.cons gnomax .nil) .nil .nil .nil

/-- The amended C7 invariant: whenever a wargear option group is non-empty,
the first option recorded for it carries the default flag. -/
def FirstDefault (opts : List WargearOption) : Prop :=
  ∀ (g : String) (o : WargearOption),
    opts.find? (fun o => o.group_name == g) = some o → o.is_default = true

/-- C9 witness ability: the record the `Templar Vows` info link contributes. -/
def aTV : Ability := ⟨"Templar Vows", "faction", ""⟩

/-! ## Theorems -/

/-! ### Generic helper lemmas -/

theorem string_length_eq_data (s : String) : s.length = s.data.length := by
  rcases s with ⟨d⟩
  rfl

theorem toHexChars_length (bs : List Nat) : (toHexChars bs).length = 2 * bs.length := by
  induction bs with
  | nil => rfl
  | cons b bs ih =>
    simp [toHexChars, List.flatMap_cons, List.length_append] at ih ⊢
    omega

theorem md5_length (msg : List Nat) : (md5 msg).length = 16 := by
  simp [md5, wordLE]

theorem md5Hex_data (s : String) : (md5Hex s).data = toHexChars (md5 (utf8Bytes s)) := rfl

theorem md5Hex_data_length (s : String) : (md5Hex s).data.length = 32 := by
  rw [md5Hex_data, toHexChars_length, md5_length]

theorem hexDigit_mem (n : Nat) : hexDigit n ∈ hexDigitChars := by
  unfold hexDigit
  split <;> decide

theorem toHexChars_hex {bs : List Nat} {ch : Char} (h : ch ∈ toHexChars bs) :
    ch ∈ hexDigitChars := by
  rw [toHexChars, List.mem_flatMap] at h
  obtain ⟨b, -, hb⟩ := h
  rcases List.mem_cons.mp hb with h1 | h1
  · exact h1 ▸ hexDigit_mem _
  · rcases List.mem_singleton.mp h1 with rfl
    exact hexDigit_mem _

theorem jsSlice_data (s : String) (i j : Nat) :
    (jsSlice s i j).data = (s.data.drop i).take (j - i) := rfl

theorem jsSlice_chars {s : String} {i j : Nat} {ch : Char}
    (h : ch ∈ (jsSlice s i j).data) : ch ∈ s.data := by
  rw [jsSlice_data] at h
  exact List.Sublist.mem (List.Sublist.mem h (List.take_sublist _ _)) (List.drop_sublist _ _)

theorem jsSlice_length (s : String) (i j : Nat) :
    (jsSlice s i j).length = min (j - i) (s.data.length - i) := by
  rw [string_length_eq_data, jsSlice_data, List.length_take, List.length_drop]

theorem md5Hex_chars {s : String} {ch : Char} (h : ch ∈ (md5Hex s).data) :
    ch ∈ hexDigitChars := by
  rw [md5Hex_data] at h
  exact toHexChars_hex h

/-! ### C1: `uuidFromSeed` is deterministic and has the fixed 8-4-4-4-12
hyphenated hex layout -/

/-- C1.  The identity generator is a pure deterministic function of the seed
string, and its output is exactly the five MD5-hex slices of lengths
8, 4, 4, 4 and 12 joined with hyphens; every character of the output is a
hyphen or a lowercase hex digit. -/
theorem uuidFromSeed_spec (s t : String) :
    (s = t → uuidFromSeed s = uuidFromSeed t) ∧
    uuidFromSeed s =
      jsSlice (md5Hex s) 0 8 ++ "-" ++ jsSlice (md5Hex s) 8 12 ++ "-" ++
        jsSlice (md5Hex s) 12 16 ++ "-" ++ jsSlice (md5Hex s) 16 20 ++ "-" ++
        jsSlice (md5Hex s) 20 32 ∧
    (jsSlice (md5Hex s) 0 8).length = 8 ∧
    (jsSlice (md5Hex s) 8 12).length = 4 ∧
    (jsSlice (md5Hex s) 12 16).length = 4 ∧
    (jsSlice (md5Hex s) 16 20).length = 4 ∧
    (jsSlice (md5Hex s) 20 32).length = 12 ∧
    (∀ ch ∈ (md5Hex s).data, ch ∈ hexDigitChars) ∧
    (∀ ch ∈ (uuidFromSeed s).data, ch ∈ '-' :: hexDigitChars) := by
  have hlen := md5Hex_data_length s
  have hslice : ∀ i j : Nat, (jsSlice (md5Hex s) i j).length = min (j - i) (32 - i) := by
    intro i j
    rw [jsSlice_length, hlen]
  have hshape : uuidFromSeed s =
      jsSlice (md5Hex s) 0 8 ++ "-" ++ jsSlice (md5Hex s) 8 12 ++ "-" ++
        jsSlice (md5Hex s) 12 16 ++ "-" ++ jsSlice (md5Hex s) 16 20 ++ "-" ++
        jsSlice (md5Hex s) 20 32 := rfl
  refine ⟨fun h => h ▸ rfl, hshape, ?_, ?_, ?_, ?_, ?_, fun ch hc => md5Hex_chars hc, ?_⟩
  · rw [hslice]; decide
  · rw [hslice]; decide
  · rw [hslice]; decide
  · rw [hslice]; decide
  · rw [hslice]; decide
  · intro ch hc
    rw [hshape] at hc
    simp only [String.data_append, List.mem_append] at hc
    rcases hc with ((((((((h | h) | h) | h) | h) | h) | h) | h) | h) <;>
      first
        | exact List.mem_cons.mpr (Or.inr (md5Hex_chars (jsSlice_chars h)))
        | (have hch : ch = '-' := by simpa using h
           subst hch
           exact List.mem_cons_self _ _)

set_option maxRecDepth 100000 in
/-- C1 witness: the theorem instantiated at a concrete seed, together with
the concrete value of the generator at the RFC 1321 test vector `"a"`. -/
theorem uuidFromSeed_spec_witness :
    uuidFromSeed "unit:Necrons:Necron Warriors" = uuidFromSeed "unit:Necrons:Necron Warriors" ∧
    uuidFromSeed "a" = "0cc175b9-c0f1-b6a8-31c3-99e269772661" :=
  ⟨(uuidFromSeed_spec "unit:Necrons:Necron Warriors" "unit:Necrons:Necron Warriors").1 rfl,
   by rfl⟩

/-! ### C4: the weapon extractor is depth-bounded and terminates on cycles -/

/-- C4.  The weapon extractor carries an explicit depth counter with ceiling
6: any call beyond the ceiling returns the empty list, and on the synthetic
cross-reference cycle `A → B → A` the extraction terminates, returning the
profiles resolved before the budget ran out (the truncated call at depth 7
contributing nothing). -/
theorem extractWeapons_depth_bound :
    (∀ (n : Node) (idx : EntryIndex) (depth : Nat), 6 < depth →
        extractWeapons n idx depth = []) ∧
    extractWeapons nodeA cycIdx 0 = [gunA, gunB, gunA, gunB, gunA, gunB, gunA] := by
  constructor
  · intro n idx depth h
    unfold extractWeapons
    have h7 : 7 - depth = 0 := by omega
    rw [h7]
    rfl
  · rfl

/-- C4 witness: the depth-bound branch instantiated at depth 7. -/
theorem extractWeapons_depth_bound_witness :
    6 < 7 ∧ extractWeapons nodeA cycIdx 7 = [] :=
  ⟨by omega, extractWeapons_depth_bound.1 nodeA cycIdx 7 (by omega)⟩

/-! ### C10: `extractPointsTiers` never depends on max/selections
constraints -/

theorem scrubMaxSel_costs (n : Node) : (scrubMaxSel n).costs = n.costs := by
  cases n <;> rfl

theorem scrubMaxSel_modifiers (n : Node) : (scrubMaxSel n).modifiers = n.modifiers := by
  cases n <;> rfl

theorem scrubMaxSel_groups (n : Node) :
    (scrubMaxSel n).selectionEntryGroups =
      n.selectionEntryGroups.mapNodes scrubGroupMaxSel := by
  cases n <;> rfl

theorem scrubGroup_constraints (g : Node) :
    (scrubGroupMaxSel g).constraints =
      g.constraints.filter (fun c => !(c.type == "max" && c.field == "selections")) := by
  cases g <;> rfl

theorem toList_mapNodes (f : Node → Node) (s : NodeSeq) :
    (s.mapNodes f).toList = s.toList.map f := by
  match s with
  | .nil => rfl
  | .cons hd tl =>
    simp [NodeSeq.mapNodes, NodeSeq.toList, toList_mapNodes f tl]

theorem minMaxStep_fst (st : Int × Int) (c : Constraint) :
    (minMaxStep st c).1 =
      if c.type == "min" && c.field == "selections" then jsIntOr c.value 1 else st.1 := rfl

theorem constraints_fold_fst (cs : List Constraint) :
    ∀ st st' : Int × Int, st.1 = st'.1 →
      ((cs.filter (fun c => !(c.type == "max" && c.field == "selections"))).foldl
          minMaxStep st').1 =
        (cs.foldl minMaxStep st).1 := by
  induction cs with
  | nil =>
    intro st st' h
    simpa using h.symm
  | cons c cs ih =>
    intro st st' h
    by_cases hc : (c.type == "max" && c.field == "selections") = true
    · have htype : c.type = "max" := by
        have hc' := hc
        simp only [Bool.and_eq_true, beq_iff_eq] at hc'
        exact hc'.1
      have hmin : (c.type == "min" && c.field == "selections") = false := by
        rw [htype]
        rfl
      rw [List.filter_cons]
      simp only [hc, Bool.not_true, Bool.false_eq_true, if_false, List.foldl_cons]
      exact ih (minMaxStep st c) st' (by rw [minMaxStep_fst, hmin]; simpa using h)
    · have hcf : (!(c.type == "max" && c.field == "selections")) = true := by
        simp [Bool.eq_false_iff.mpr hc]
      rw [List.filter_cons]
      simp only [hcf, if_true, List.foldl_cons]
      refine ih (minMaxStep st c) (minMaxStep st' c) ?_
      rw [minMaxStep_fst, minMaxStep_fst, h]

theorem groups_fold_fst (gs : List Node) :
    ∀ st st' : Int × Int, st.1 = st'.1 →
      ((gs.map scrubGroupMaxSel).foldl
          (fun st g => g.constraints.foldl minMaxStep st) st').1 =
        (gs.foldl (fun st g => g.constraints.foldl minMaxStep st) st).1 := by
  induction gs with
  | nil =>
    intro st st' h
    simpa using h.symm
  | cons g gs ih =>
    intro st st' h
    simp only [List.map_cons, List.foldl_cons]
    refine ih _ _ ?_
    rw [scrubGroup_constraints]
    exact (constraints_fold_fst g.constraints st st' h).symm

theorem minMaxModels_fst_scrub (n : Node) :
    (minMaxModels (scrubMaxSel n)).1 = (minMaxModels n).1 := by
  rw [minMaxModels, minMaxModels, scrubMaxSel_groups, toList_mapNodes]
  exact groups_fold_fst _ (1, 1) (1, 1) rfl

theorem basePointsOf_scrub (n : Node) : basePointsOf (scrubMaxSel n) = basePointsOf n := by
  rw [basePointsOf, basePointsOf, scrubMaxSel_costs]

theorem baseTiers_scrub (n : Node) : baseTiers (scrubMaxSel n) = baseTiers n := by
  unfold baseTiers
  rw [basePointsOf_scrub, minMaxModels_fst_scrub]

theorem extractPointsTiers_scrub (n : Node) :
    extractPointsTiers (scrubMaxSel n) = extractPointsTiers n := by
  simp only [extractPointsTiers]
  rw [baseTiers_scrub, basePointsOf_scrub, scrubMaxSel_modifiers]

/-- C10.  The tier extractor's output never depends on group-level
`max`/`selections` constraints: any two entry nodes that agree after those
constraints are erased yield the same tier list (the parsed maximum model
count is dead). -/
theorem extractPointsTiers_max_noninterference (n₁ n₂ : Node)
    (h : scrubMaxSel n₁ = scrubMaxSel n₂) :
    extractPointsTiers n₁ = extractPointsTiers n₂ := by
  rw [← extractPointsTiers_scrub n₁, h, extractPointsTiers_scrub]

/-- C10 witness: two concrete entries differing exactly in the presence of a
`max 10` selections constraint produce the same (nonempty) tier list. -/
theorem extractPointsTiers_max_noninterference_witness :
    extractPointsTiers n10a = extractPointsTiers n10b ∧
    extractPointsTiers n10a = [⟨5, 90⟩] ∧
    gmax.constraints ≠ gnomax.constraints :=
  ⟨extractPointsTiers_max_noninterference n10a n10b rfl, rfl, by decide⟩

/-! ### Substring characterizations (for C6) -/

theorem listStartsWith_iff (p : List Char) :
    ∀ l : List Char, listStartsWith l p = true ↔ ∃ r, l = p ++ r := by
  induction p with
  | nil =>
    intro l
    constructor
    · intro _
      exact ⟨l, rfl⟩
    · intro _
      cases l <;> rfl
  | cons ph pt ih =>
    intro l
    cases l with
    | nil =>
      simp [listStartsWith]
    | cons c cs =>
      rw [listStartsWith]
      simp only [Bool.and_eq_true, beq_iff_eq, ih, List.cons_append, List.cons.injEq]
      constructor
      · rintro ⟨rfl, r, rfl⟩
        exact ⟨r, rfl, rfl⟩
      · rintro ⟨r, rfl, rfl⟩
        exact ⟨rfl, r, rfl⟩

theorem jsIncludesL_cons (c : Char) (rest p : List Char) :
    jsIncludesL (c :: rest) p =
      (listStartsWith (c :: rest) p || jsIncludesL rest p) := by
  rw [jsIncludesL]
  by_cases h : listStartsWith (c :: rest) p = true <;> simp [h]

theorem jsIncludesL_nil (p : List Char) :
    jsIncludesL [] p = listStartsWith [] p := by
  rw [jsIncludesL]
  by_cases h : listStartsWith [] p = true <;> simp [h]

theorem jsIncludesL_iff (p : List Char) :
    ∀ l : List Char, jsIncludesL l p = true ↔ ∃ pre r, l = pre ++ (p ++ r) := by
  intro l
  induction l with
  | nil =>
    rw [jsIncludesL_nil, listStartsWith_iff]
    constructor
    · rintro ⟨r, hr⟩
      exact ⟨[], r, hr⟩
    · rintro ⟨pre, r, h⟩
      rcases List.append_eq_nil.mp h.symm with ⟨rfl, h2⟩
      exact ⟨r, h2.symm⟩
  | cons c rest ih =>
    rw [jsIncludesL_cons]
    simp only [Bool.or_eq_true, ih, listStartsWith_iff]
    constructor
    · rintro (⟨r, hr⟩ | ⟨pre, r, hr⟩)
      · exact ⟨[], r, hr⟩
      · exact ⟨c :: pre, r, by simp [hr]⟩
    · rintro ⟨pre, r, h⟩
      cases pre with
      | nil =>
        exact Or.inl ⟨r, by simpa using h⟩
      | cons p0 pre =>
        rcases List.cons.injEq .. ▸ h with ⟨rfl, h2⟩
        exact Or.inr ⟨pre, r, h2⟩

theorem jsIncludes_iff (s pat : String) :
    jsIncludes s pat = true ↔ ∃ pre r, s.data = pre ++ (pat.data ++ r) :=
  jsIncludesL_iff pat.data s.data

/-! ### C6: enhancement-to-detachment attribution -/

theorem foldl_push_filter_map {α β : Type} (p : α → Bool) (f : α → β) (l : List α) :
    ∀ init : List β,
      l.foldl (fun acc x => if p x then acc ++ [f x] else acc) init =
        init ++ (l.filter p).map f := by
  induction l with
  | nil =>
    intro init
    simp
  | cons x l ih =>
    intro init
    rw [List.foldl_cons, List.filter_cons]
    by_cases hp : p x = true
    · simp only [hp, if_true, ih, List.map_cons, List.append_assoc, List.singleton_append]
    · simp only [hp, if_false, ih, Bool.false_eq_true]

theorem detachmentEnhancements_eq (det : String) (gs : List Node) :
    detachmentEnhancements det gs =
      gs.flatMap fun g =>
        (g.selectionEntries.toList.filter
          (fun e => enhMatches det g.name e.comment)).map enhancementOfEntry := by
  rw [detachmentEnhancements]
  suffices h : ∀ init : List Enhancement,
      gs.foldl (fun enhs enhGroup =>
        enhGroup.selectionEntries.toList.foldl
          (fun enhs enhEntry =>
            if enhMatches det enhGroup.name enhEntry.comment then
              enhs ++ [enhancementOfEntry enhEntry]
            else enhs) enhs) init =
        init ++ gs.flatMap fun g =>
          (g.selectionEntries.toList.filter
            (fun e => enhMatches det g.name e.comment)).map enhancementOfEntry by
    simpa using h []
  induction gs with
  | nil =>
    intro init
    simp
  | cons g gs ih =>
    intro init
    rw [List.foldl_cons, foldl_push_filter_map, ih, List.flatMap_cons, List.append_assoc]

theorem mem_detachmentEnhancements (det : String) (gs : List Node) (e : Enhancement) :
    e ∈ detachmentEnhancements det gs ↔
      ∃ g ∈ gs, ∃ entry ∈ g.selectionEntries.toList,
        enhMatches det g.name entry.comment = true ∧ e = enhancementOfEntry entry := by
  rw [detachmentEnhancements_eq]
  simp only [List.mem_flatMap, List.mem_map, List.mem_filter]
  constructor
  · rintro ⟨g, hg, entry, ⟨hmem, hmatch⟩, rfl⟩
    exact ⟨g, hg, entry, hmem, hmatch, rfl⟩
  · rintro ⟨g, hg, entry, hmem, hmatch, rfl⟩
    exact ⟨g, hg, entry, ⟨hmem, hmatch⟩, rfl⟩

/-- C6 counterexample: the source attributes the enhancement `Sigil` of the
group named `ab enhancements` to a detachment named `b e` (the first
substring direction tests the unstripped group name, and
`"ab enhancements"` contains `"b e"`), while the specification's
stripped-suffix rule matches neither direction and no comment is present. -/
theorem enh_attribution_cex :
    detachmentEnhancements "b e" [enhGroupAbE] = [⟨"Sigil", 0, ""⟩] ∧
    specEnhMatchC6 "b e" "ab enhancements" "" = false := ⟨rfl, rfl⟩

/-- C6 (amended).  An enhancement entry is attributed to a detachment iff
either the lowercased, unstripped group name contains the detachment name,
or the detachment name contains the group name with the first occurrence of
`" enhancements"` removed, or the comment is non-empty and equals the
detachment name case-insensitively; the spec's concrete examples hold:
`Index Raiders Enhancements` attaches to `Index Raiders`, and
`Oath of Moment` does not attach to `Gladius Task Force`. -/
theorem enh_attribution_amended :
    (∀ det g comment : String,
      enhMatches det g comment = true ↔
        ((∃ pre r, (asciiLower g).data = pre ++ ((asciiLower det).data ++ r)) ∨
         (∃ pre r, (asciiLower det).data =
            pre ++ ((jsRemoveFirst (asciiLower g) " enhancements").data ++ r)) ∨
         (asciiLower comment ≠ "" ∧ asciiLower comment = asciiLower det))) ∧
    (∀ e : Enhancement, e ∈ detachmentEnhancements "Index Raiders" [enhGroupIR] ↔
        e = ⟨"E1", 0, ""⟩) ∧
    detachmentEnhancements "Gladius Task Force" [enhGroupOath] = [] := by
  refine ⟨?_, ?_, rfl⟩
  · intro det g comment
    rw [enhMatches]
    simp only [Bool.or_eq_true, Bool.and_eq_true, Bool.not_eq_true', beq_iff_eq,
      beq_eq_false_iff_ne, jsIncludes_iff]
    exact or_assoc
  · intro e
    rw [show detachmentEnhancements "Index Raiders" [enhGroupIR] = [⟨"E1", 0, ""⟩] from rfl]
    exact List.mem_singleton

/-! ### C5: multi-document merge is first-seen-wins and order-sensitive -/

theorem rebaseUnit_name (fac : String) (u : UnitRec) :
    (rebaseUnit fac u).name = u.name := by
  cases u
  rfl

theorem contains_cons_iff (y x : String) (seen : List String) :
    (y :: seen).contains x = (x == y || seen.contains x) := rfl

theorem mergeUnitsGo_find (fac x : String) (l : List UnitRec) :
    ∀ seen : List String, seen.contains x = false →
      (mergeUnitsGo fac seen l).find? (fun u => u.name == x) =
        (l.find? (fun u => u.name == x)).map (rebaseUnit fac) := by
  induction l with
  | nil =>
    intro seen _
    rfl
  | cons u l ih =>
    intro seen h
    rw [mergeUnitsGo]
    by_cases hc : seen.contains u.name = true
    · rw [if_pos hc]
      have hx : u.name ≠ x := by
        intro he
        rw [he] at hc
        rw [hc] at h
        exact Bool.true_eq_false.mp h
      rw [ih seen h]
      simp only [List.find?, beq_eq_false_iff_ne.mpr hx]
    · rw [if_neg hc]
      by_cases hx : u.name = x
      · have hpred : ((rebaseUnit fac u).name == x) = true := by
          rw [rebaseUnit_name, hx]
          exact beq_self_eq_true x
        have hux : (u.name == x) = true := by
          rw [hx]
          exact beq_self_eq_true x
        simp only [List.find?, hpred, hux, Option.map_some']
      · have hpred : ((rebaseUnit fac u).name == x) = false := by
          rw [rebaseUnit_name]
          exact beq_eq_false_iff_ne.mpr hx
        simp only [List.find?, hpred, beq_eq_false_iff_ne.mpr hx]
        refine ih _ ?_
        rw [contains_cons_iff, h,
          beq_eq_false_iff_ne.mpr (fun he => hx he.symm)]
        rfl

theorem mergeUnitsGo_count (fac x : String) (l : List UnitRec) :
    ∀ seen : List String,
      ((mergeUnitsGo fac seen l).countP (fun u => u.name == x) ≤ 1) ∧
      (seen.contains x = true →
        (mergeUnitsGo fac seen l).countP (fun u => u.name == x) = 0) := by
  induction l with
  | nil =>
    intro seen
    exact ⟨by simp [mergeUnitsGo], fun _ => rfl⟩
  | cons u l ih =>
    intro seen
    rw [mergeUnitsGo]
    by_cases hc : seen.contains u.name = true
    · rw [if_pos hc]
      exact ih seen
    · rw [if_neg hc]
      constructor
      · rw [List.countP_cons]
        by_cases hx : u.name = x
        · have h0 := (ih (u.name :: seen)).2 (by
            rw [contains_cons_iff, hx, beq_self_eq_true]
            rfl)
          rw [h0]
          simp [rebaseUnit_name, hx]
        · have hle := (ih (u.name :: seen)).1
          have : ((rebaseUnit fac u).name == x) = false := by
            rw [rebaseUnit_name]
            exact beq_eq_false_iff_ne.mpr hx
          rw [this]
          simpa using hle
      · intro hx
        rw [List.countP_cons]
        have hne : u.name ≠ x := by
          intro he
          rw [he] at hc
          exact hc hx
        have h0 := (ih (u.name :: seen)).2 (by
          rw [contains_cons_iff, hx, Bool.or_true])
        rw [h0]
        have : ((rebaseUnit fac u).name == x) = false := by
          rw [rebaseUnit_name]
          exact beq_eq_false_iff_ne.mpr hne
        rw [this]
        rfl

theorem mergeDetachmentsGo_find (x : String) (l : List Detachment) :
    ∀ acc : List Detachment,
      (mergeDetachmentsGo acc l).find? (fun d => d.name == x) =
        (acc ++ l).find? (fun d => d.name == x) := by
  induction l with
  | nil =>
    intro acc
    simp [mergeDetachmentsGo]
  | cons d l ih =>
    intro acc
    rw [mergeDetachmentsGo]
    by_cases hc : acc.any (fun y => y.name == d.name) = true
    · rw [if_pos hc, ih acc]
      rcases hfa : acc.find? (fun y => y.name == x) with _ | a
      · have hall := List.find?_eq_none.mp hfa
        have hdx : (d.name == x) = false := by
          by_cases hdx : d.name = x
          · obtain ⟨y, hy, hyx⟩ := List.any_eq_true.mp hc
            exact absurd (by rw [beq_iff_eq.mp hyx, hdx]; exact beq_self_eq_true x)
              (hall y hy)
          · exact beq_eq_false_iff_ne.mpr hdx
        rw [List.find?_append, List.find?_append, hfa]
        simp only [Option.none_or, List.find?, hdx]
      · rw [List.find?_append, List.find?_append, hfa]
        rfl
    · rw [if_neg hc, ih (acc ++ [d])]
      simp [List.append_assoc]

theorem mergeDetachmentsGo_count (x : String) (l : List Detachment) :
    ∀ acc : List Detachment, acc.countP (fun d => d.name == x) ≤ 1 →
      (mergeDetachmentsGo acc l).countP (fun d => d.name == x) ≤ 1 := by
  induction l with
  | nil =>
    intro acc h
    simpa [mergeDetachmentsGo] using h
  | cons d l ih =>
    intro acc h
    rw [mergeDetachmentsGo]
    by_cases hc : acc.any (fun y => y.name == d.name) = true
    · rw [if_pos hc]
      exact ih acc h
    · rw [if_neg hc]
      refine ih (acc ++ [d]) ?_
      rw [List.countP_append]
      by_cases hdx : d.name = x
      · have hzero : acc.countP (fun d => d.name == x) = 0 := by
          rw [List.countP_eq_zero]
          intro y hy hyx
          refine hc ?_
          refine List.any_eq_true.mpr ⟨y, hy, ?_⟩
          rw [beq_iff_eq.mp hyx, hdx]
          exact beq_self_eq_true x
        rw [hzero]
        simp [hdx]
      · have : List.countP (fun d => d.name == x) [d] = 0 := by
          simp [List.countP_cons, beq_eq_false_iff_ne.mpr hdx]
        omega

theorem flatten_pair {α : Type} (A B : List α) : [A, B].flatten = A ++ B := by
  simp

/-- C5.  Multi-document merge is first-seen-wins and order-sensitive: when
both documents of a faction define a unit named `x`, the merge of `[A, B]`
keeps exactly one unit named `x`, namely A's first such unit with its id
rebased onto the merge-level faction name, and merging `[B, A]` keeps B's
version instead; detachment lists merge by name the same way (without
rebasing). -/
theorem merge_first_seen_wins :
    (∀ (fac x : String) (A B : List UnitRec) (uA uB : UnitRec),
      A.find? (fun u => u.name == x) = some uA →
      B.find? (fun u => u.name == x) = some uB →
      (mergeUnits fac [A, B]).find? (fun u => u.name == x) = some (rebaseUnit fac uA) ∧
      (mergeUnits fac [A, B]).countP (fun u => u.name == x) = 1 ∧
      (mergeUnits fac [B, A]).find? (fun u => u.name == x) = some (rebaseUnit fac uB)) ∧
    (∀ (x : String) (C D : List Detachment) (dC dD : Detachment),
      C.find? (fun d => d.name == x) = some dC →
      D.find? (fun d => d.name == x) = some dD →
      (mergeDetachments [C, D]).find? (fun d => d.name == x) = some dC ∧
      (mergeDetachments [C, D]).countP (fun d => d.name == x) = 1 ∧
      (mergeDetachments [D, C]).find? (fun d => d.name == x) = some dD) := by
  constructor
  · intro fac x A B uA uB hA hB
    have hfindAB : (mergeUnits fac [A, B]).find? (fun u => u.name == x) =
        some (rebaseUnit fac uA) := by
      rw [mergeUnits, flatten_pair, mergeUnitsGo_find fac x _ [] rfl,
        List.find?_append, hA]
      rfl
    refine ⟨hfindAB, ?_, ?_⟩
    · have hle := (mergeUnitsGo_count fac x ([A, B].flatten) []).1
      have hpos : 0 < (mergeUnits fac [A, B]).countP (fun u => u.name == x) := by
        rw [List.countP_pos_iff]
        refine ⟨rebaseUnit fac uA, List.mem_of_find?_eq_some hfindAB, ?_⟩
        have hpA := List.find?_some hA
        rw [rebaseUnit_name]
        simpa using hpA
      rw [mergeUnits] at hpos ⊢
      omega
    · rw [mergeUnits, flatten_pair, mergeUnitsGo_find fac x _ [] rfl,
        List.find?_append, hB]
      rfl
  · intro x C D dC dD hC hD
    have hfindCD : (mergeDetachments [C, D]).find? (fun d => d.name == x) = some dC := by
      rw [mergeDetachments, flatten_pair, mergeDetachmentsGo_find x _ [],
        List.nil_append, List.find?_append, hC]
      rfl
    refine ⟨hfindCD, ?_, ?_⟩
    · have hle := mergeDetachmentsGo_count x ([C, D].flatten) [] (by simp)
      have hpos : 0 < (mergeDetachments [C, D]).countP (fun d => d.name == x) := by
        rw [List.countP_pos_iff]
        refine ⟨dC, List.mem_of_find?_eq_some hfindCD, ?_⟩
        have hpC := List.find?_some hC
        simpa using hpC
      rw [mergeDetachments] at hpos ⊢
      omega
    · rw [mergeDetachments, flatten_pair, mergeDetachmentsGo_find x _ [],
        List.nil_append, List.find?_append, hD]
      rfl

/-- C5 witness: the theorem instantiated on concrete one-unit documents both
defining `X` (and one-detachment documents both defining `D`). -/
theorem merge_first_seen_wins_witness :
    (mergeUnits "F" [[uX1], [uX2]]).find? (fun u => u.name == "X") =
      some (rebaseUnit "F" uX1) ∧
    (mergeUnits "F" [[uX2], [uX1]]).find? (fun u => u.name == "X") =
      some (rebaseUnit "F" uX2) ∧
    (mergeDetachments [[dX1], [dX2]]).find? (fun d => d.name == "D") = some dX1 ∧
    (mergeDetachments [[dX2], [dX1]]).find? (fun d => d.name == "D") = some dX2 :=
  ⟨(merge_first_seen_wins.1 "F" "X" [uX1] [uX2] uX1 uX2 rfl rfl).1,
   (merge_first_seen_wins.1 "F" "X" [uX2] [uX1] uX2 uX1 rfl rfl).1,
   (merge_first_seen_wins.2 "D" [dX1] [dX2] dX1 dX2 rfl rfl).1,
   (merge_first_seen_wins.2 "D" [dX2] [dX1] dX2 dX1 rfl rfl).1⟩

/-! ### C9: abilities contributed by `rule` info links -/

theorem infoLinkStep_cases (abs : List Ability) (link : InfoLink) :
    infoLinkStep abs link = abs ∨
      (infoLinkStep abs link = abs ++ [⟨link.name, "faction", ""⟩] ∧
       ruleAllowNames.any
         (fun f => jsIncludes (asciiLower link.name) (asciiLower f)) = true ∧
       abs.any (fun a => asciiLower a.name == asciiLower link.name) = false) := by
  unfold infoLinkStep
  split_ifs with h1 h2 h3 h4
  · exact Or.inl rfl
  · exact Or.inl rfl
  · exact Or.inr ⟨rfl, h3, Bool.eq_false_iff.mpr h4⟩
  · exact Or.inl rfl
  · exact Or.inl rfl

/-- C9.  Every ability record a unit gets beyond its full ability profiles
comes from a `rule` info link whose name hits the narrow allow-list as a
case-insensitive substring, is classified `faction` with an empty
description, and is only present when no profile ability shares its
case-insensitive name. -/
theorem extractAbilities_infoLink_only (n : Node) (a : Ability)
    (ha : a ∈ extractAbilities n) :
    a ∈ profileAbilities n ∨
      (a.type = "faction" ∧ a.description = "" ∧
       ruleAllowNames.any
         (fun f => jsIncludes (asciiLower a.name) (asciiLower f)) = true ∧
       ∀ p ∈ profileAbilities n, asciiLower p.name ≠ asciiLower a.name) := by
  have main : ∀ (links : List InfoLink) (abs : List Ability),
      (∀ p ∈ profileAbilities n, p ∈ abs) →
      (∀ b ∈ abs, b ∈ profileAbilities n ∨
        (b.type = "faction" ∧ b.description = "" ∧
         ruleAllowNames.any
           (fun f => jsIncludes (asciiLower b.name) (asciiLower f)) = true ∧
         ∀ p ∈ profileAbilities n, asciiLower p.name ≠ asciiLower b.name)) →
      ∀ b ∈ links.foldl infoLinkStep abs, b ∈ profileAbilities n ∨
        (b.type = "faction" ∧ b.description = "" ∧
         ruleAllowNames.any
           (fun f => jsIncludes (asciiLower b.name) (asciiLower f)) = true ∧
         ∀ p ∈ profileAbilities n, asciiLower p.name ≠ asciiLower b.name) := by
    intro links
    induction links with
    | nil =>
      intro abs _ hgood b hb
      exact hgood b hb
    | cons link links ih =>
      intro abs hsub hgood b hb
      rw [List.foldl_cons] at hb
      rcases infoLinkStep_cases abs link with hstep | ⟨hstep, hallow, hnone⟩
      · rw [hstep] at hb
        exact ih abs hsub hgood b hb
      · rw [hstep] at hb
        refine ih _ (fun p hp => List.mem_append.mpr (Or.inl (hsub p hp))) ?_ b hb
        intro c hc
        rcases List.mem_append.mp hc with hc | hc
        · exact hgood c hc
        · rcases List.mem_singleton.mp hc with rfl
          refine Or.inr ⟨rfl, rfl, hallow, ?_⟩
          intro p hp heq
          have hbeq : (asciiLower p.name == asciiLower link.name) = true :=
            beq_iff_eq.mpr heq
          have hfalse : abs.any
              (fun a => asciiLower a.name == asciiLower link.name) = true :=
            List.any_eq_true.mpr ⟨p, hsub p hp, hbeq⟩
          rw [hnone] at hfalse
          exact Bool.false_ne_true hfalse
  exact main n.infoLinks (profileAbilities n) (fun p hp => hp) (fun b hb => Or.inl hb) a ha

set_option maxRecDepth 10000 in
/-- C9 witness: on the concrete entry `n9`, the `Templar Vows` info link
contributes a record (the colliding `Oath of Moment` link does not), and the
theorem's conclusion holds of it. -/
theorem extractAbilities_infoLink_only_witness :
    aTV ∈ extractAbilities n9 ∧
    (aTV ∈ profileAbilities n9 ∨
      (aTV.type = "faction" ∧ aTV.description = "" ∧
       ruleAllowNames.any
         (fun f => jsIncludes (asciiLower aTV.name) (asciiLower f)) = true ∧
       ∀ p ∈ profileAbilities n9, asciiLower p.name ≠ asciiLower aTV.name)) :=
  ⟨by decide, extractAbilities_infoLink_only n9 aTV (by decide)⟩

/-! ### C7: wargear option groups and the default flag -/

theorem find?_append_some' {α : Type} {p : α → Bool} {l₁ l₂ : List α} {a : α}
    (h : l₁.find? p = some a) : (l₁ ++ l₂).find? p = some a := by
  rw [List.find?_append, h]
  rfl

theorem find?_append_none' {α : Type} {p : α → Bool} {l₁ l₂ : List α}
    (h : l₁.find? p = none) : (l₁ ++ l₂).find? p = l₂.find? p := by
  rw [List.find?_append, h]
  rfl

theorem foldl_preserve {α β : Type} (P : β → Prop) (f : β → α → β)
    (hstep : ∀ b a, P b → P (f b a)) (l : List α) :
    ∀ init, P init → P (l.foldl f init) := by
  induction l with
  | nil => exact fun init h => h
  | cons a l ih =>
    intro init h
    rw [List.foldl_cons]
    exact ih (f init a) (hstep init a h)

theorem firstDefault_append (opts seg : List WargearOption) (hP : FirstDefault opts)
    (hseg : ∀ g o, opts.find? (fun o => o.group_name == g) = none →
        seg.find? (fun o => o.group_name == g) = some o → o.is_default = true) :
    FirstDefault (opts ++ seg) := by
  intro g o h
  rcases hfo : opts.find? (fun o => o.group_name == g) with _ | o'
  · rw [find?_append_none' hfo] at h
    exact hseg g o hfo h
  · rw [find?_append_some' hfo] at h
    injection h with h2
    exact h2 ▸ hP g o' hfo

theorem push_countP_default (opts : List WargearOption) (gname nm : String) (pts : Int)
    (hP : FirstDefault opts) :
    FirstDefault (opts ++
      [{ group_name := gname
         name := nm
         is_default := opts.countP (fun o => o.group_name == gname) == 0
         points := pts }]) := by
  refine firstDefault_append _ _ hP ?_
  intro g o hnone hfind
  simp only [List.find?] at hfind
  by_cases hg : gname = g
  · subst hg
    rw [beq_self_eq_true] at hfind
    injection hfind with h2
    rw [← h2]
    have hzero : opts.countP (fun o => o.group_name == gname) = 0 :=
      List.countP_eq_zero.mpr (List.find?_eq_none.mp hnone)
    show (opts.countP (fun o => o.group_name == gname) == 0) = true
    rw [hzero]
    rfl
  · rw [beq_eq_false_iff_ne.mpr hg] at hfind
    exact Option.noConfusion hfind

theorem wargearDirectEntries_firstDefault (opts : List WargearOption) (group : Node)
    (hP : FirstDefault opts) : FirstDefault (wargearDirectEntries opts group) := by
  unfold wargearDirectEntries
  refine firstDefault_append _ _ hP ?_
  intro g o hnone hfind
  rcases hle : group.selectionEntries.toList.filter (fun e => e.type == "upgrade")
    with _ | ⟨e, es⟩
  · rw [hle] at hfind
    exact Option.noConfusion hfind
  · rw [hle, List.enum_cons, List.map_cons] at hfind
    simp only [List.find?] at hfind
    by_cases hg : ("Wargear" : String) = g
    · rw [beq_iff_eq.mpr hg] at hfind
      injection hfind with h2
      rw [← h2]
      rfl
    · rw [beq_eq_false_iff_ne.mpr hg] at hfind
      have hrest : (List.map
          (fun p : Nat × Node =>
            ({ group_name := "Wargear"
               name := p.2.name
               is_default := p.1 == 0
               points := ptsOfCosts p.2.costs } : WargearOption))
          (List.enumFrom 1 es)).find? (fun o => o.group_name == g) = none := by
        rw [List.find?_eq_none]
        intro x hx
        rcases List.mem_map.mp hx with ⟨p, -, rfl⟩
        simp [beq_eq_false_iff_ne.mpr hg]
      rw [hrest] at hfind
      exact Option.noConfusion hfind

theorem wargearWGLinkStep_firstDefault (opts : List WargearOption) (link : Node)
    (hP : FirstDefault opts) : FirstDefault (wargearWGLinkStep opts link) := by
  unfold wargearWGLinkStep
  split_ifs
  · exact hP
  · exact push_countP_default opts "Wargear" link.name (ptsOfCosts link.costs) hP

theorem wargearGroupLinks_firstDefault (opts : List WargearOption) (group : Node)
    (hP : FirstDefault opts) : FirstDefault (wargearGroupLinks opts group) :=
  foldl_preserve FirstDefault wargearWGLinkStep wargearWGLinkStep_firstDefault
    group.entryLinks.toList opts hP

theorem wargearSubgroupLinkStep_firstDefault (idx : EntryIndex) (sgName : String)
    (opts : List WargearOption) (link : Node) (hP : FirstDefault opts) :
    FirstDefault (wargearSubgroupLinkStep idx sgName opts link) := by
  unfold wargearSubgroupLinkStep
  split_ifs with h1
  · exact hP
  · show FirstDefault (if (link.name == "") = true then opts
      else opts ++
        [{ group_name := sgName
           name := link.name
           is_default := opts.countP (fun o => o.group_name == sgName) == 0
           points := ptsOfCosts link.costs }])
    rw [if_neg h1]
    exact push_countP_default opts sgName link.name (ptsOfCosts link.costs) hP

/-- The invariant carried through a sub-group's entry loop: options so far
are first-default, and a non-zero `sgIdx` means the sub-group already
contributed an option of its group name. -/
theorem wargearSubgroupEntryStep_inv (sgName : String) (st : List WargearOption × Nat)
    (e : Node)
    (h : FirstDefault st.1 ∧ (st.2 ≠ 0 → ∃ x ∈ st.1, x.group_name = sgName)) :
    FirstDefault (wargearSubgroupEntryStep sgName st e).1 ∧
      ((wargearSubgroupEntryStep sgName st e).2 ≠ 0 →
        ∃ x ∈ (wargearSubgroupEntryStep sgName st e).1, x.group_name = sgName) := by
  obtain ⟨h1, h2⟩ := h
  unfold wargearSubgroupEntryStep
  split_ifs with he
  · constructor
    · refine firstDefault_append _ _ h1 ?_
      intro g o hnone hfind
      simp only [List.find?] at hfind
      by_cases hg : sgName = g
      · subst hg
        rw [beq_self_eq_true] at hfind
        injection hfind with h2e
        rw [← h2e]
        have hzero : st.2 = 0 := by
          by_contra hnz
          obtain ⟨x, hx, hxg⟩ := h2 hnz
          exact List.find?_eq_none.mp hnone x hx (beq_iff_eq.mpr hxg)
        show (st.2 == 0) = true
        rw [hzero]
        rfl
      · rw [beq_eq_false_iff_ne.mpr hg] at hfind
        exact Option.noConfusion hfind
    · intro _
      exact ⟨_, List.mem_append.mpr (Or.inr (List.mem_singleton.mpr rfl)), rfl⟩
  · exact ⟨h1, h2⟩

theorem wargearSubgroup_firstDefault (idx : EntryIndex) (opts : List WargearOption)
    (subgroup : Node) (hP : FirstDefault opts) :
    FirstDefault (wargearSubgroup idx opts subgroup) := by
  unfold wargearSubgroup
  have hst := foldl_preserve
    (fun st : List WargearOption × Nat =>
      FirstDefault st.1 ∧
        (st.2 ≠ 0 → ∃ x ∈ st.1, x.group_name =
          (if subgroup.name == "" then "Wargear" else subgroup.name)))
    (wargearSubgroupEntryStep (if subgroup.name == "" then "Wargear" else subgroup.name))
    (fun st e h => wargearSubgroupEntryStep_inv _ st e h)
    subgroup.selectionEntries.toList (opts, 0) ⟨hP, fun hn => absurd rfl hn⟩
  exact foldl_preserve FirstDefault
    (wargearSubgroupLinkStep idx (if subgroup.name == "" then "Wargear" else subgroup.name))
    (fun o l h => wargearSubgroupLinkStep_firstDefault idx _ o l h)
    subgroup.entryLinks.toList _ hst.1

theorem wargearGroupStep_firstDefault (idx : EntryIndex) (opts : List WargearOption)
    (group : Node) (hP : FirstDefault opts) :
    FirstDefault (wargearGroupStep idx opts group) := by
  unfold wargearGroupStep
  split_ifs
  · exact hP
  · exact foldl_preserve FirstDefault (wargearSubgroup idx)
      (fun o sg h => wargearSubgroup_firstDefault idx o sg h)
      group.selectionEntryGroups.toList _
      (wargearGroupLinks_firstDefault _ group
        (wargearDirectEntries_firstDefault opts group hP))

/-- C7 counterexample: with two sub-groups both named `W`, each holding an
upgrade entry named `OptA`, each sub-group contributes its own defaulted
first option, so group `W` of the extracted options carries two options
flagged default — the claim's "exactly one option per group carries the
default flag" fails — and it carries two options with the same (group,
option-name) pair — the claim's "options are unique per (unit, group,
option-name)" fails on the same input. -/
theorem wargear_default_cex :
    extractWargearOptions unit7 [] =
      [⟨"W", "OptA", true, 0⟩, ⟨"W", "OptA", true, 0⟩] ∧
    (extractWargearOptions unit7 []).countP
      (fun o => o.group_name == "W" && o.is_default) = 2 ∧
    (extractWargearOptions unit7 []).countP
      (fun o => o.group_name == "W" && o.name == "OptA") = 2 := ⟨rfl, rfl, rfl⟩

/-- C7 (amended).  In the extracted wargear options of a unit, the first
option recorded for every non-empty group carries the default flag (so every
non-empty group has at least one default); further options of the same group
may also carry it, and two options with the same (group, option-name) pair
may both appear. -/
theorem wargear_first_default_amended (n : Node) (idx : EntryIndex) (g : String)
    (o : WargearOption)
    (h : (extractWargearOptions n idx).find? (fun o => o.group_name == g) = some o) :
    o.is_default = true := by
  have hfd : FirstDefault (extractWargearOptions n idx) := by
    unfold extractWargearOptions
    refine foldl_preserve FirstDefault (wargearGroupStep idx)
      (fun o gr h => wargearGroupStep_firstDefault idx o gr h)
      n.selectionEntryGroups.toList [] ?_
    intro g o h
    exact Option.noConfusion h
  exact hfd g o h

/-- C7 witness: on the counterexample unit, the first option of group `W` is
found and the theorem derives its default flag. -/
theorem wargear_first_default_amended_witness :
    (extractWargearOptions unit7 []).find? (fun o => o.group_name == "W") =
      some ⟨"W", "OptA", true, 0⟩ ∧
    (⟨"W", "OptA", true, 0⟩ : WargearOption).is_default = true :=
  ⟨rfl, wargear_first_default_amended unit7 [] "W" ⟨"W", "OptA", true, 0⟩ rfl⟩

/-! ### Invariants carried by every unit `findUnits` pushes (for C3, C8) -/

theorem admitUnit_invariant (P : UnitRec → Prop) (fac : String) (idx : EntryIndex)
    (hbuild : ∀ (entry : Node) (unitName : String) (stats : Chars),
      (extractPointsTiers entry).isEmpty = false →
      P (buildUnit fac idx entry unitName stats (extractPointsTiers entry)))
    (st : FindState) (entry : Node) (unitName : String)
    (hst : ∀ u ∈ st.2, P u) :
    ∀ u ∈ (admitUnit fac idx st entry unitName).2, P u := by
  unfold admitUnit
  by_cases h1 : (unitName == "" || st.1.contains unitName) = true
  · rw [if_pos h1]
    exact hst
  · rw [if_neg h1]
    rcases hstats : extractStats entry with _ | stats
    · simp only [hstats]
      exact hst
    · simp only [hstats]
      by_cases h2 : (extractPointsTiers entry).isEmpty = true
      · rw [if_pos h2]
        exact hst
      · rw [if_neg h2]
        intro u hu
        rcases List.mem_append.mp hu with h | h
        · exact hst u h
        · rcases List.mem_singleton.mp h with rfl
          exact hbuild entry unitName stats (Bool.eq_false_iff.mpr h2)

theorem processEntry_invariant (P : UnitRec → Prop) (fac : String) (idx : EntryIndex)
    (hbuild : ∀ (entry : Node) (unitName : String) (stats : Chars),
      (extractPointsTiers entry).isEmpty = false →
      P (buildUnit fac idx entry unitName stats (extractPointsTiers entry)))
    (st : FindState) (e : Node) (hst : ∀ u ∈ st.2, P u) :
    ∀ u ∈ (processEntry fac idx st e).2, P u := by
  unfold processEntry
  split_ifs
  · exact admitUnit_invariant P fac idx hbuild st e e.name hst
  · exact hst

theorem processLink_invariant (P : UnitRec → Prop) (fac : String) (idx : EntryIndex)
    (hbuild : ∀ (entry : Node) (unitName : String) (stats : Chars),
      (extractPointsTiers entry).isEmpty = false →
      P (buildUnit fac idx entry unitName stats (extractPointsTiers entry)))
    (st : FindState) (link : Node) (hst : ∀ u ∈ st.2, P u) :
    ∀ u ∈ (processLink fac idx st link).2, P u := by
  unfold processLink
  split
  · exact hst
  · rename_i target heq
    by_cases htc : (target.type == "unit" || target.type == "model") = true
    · rw [if_pos htc]
      exact admitUnit_invariant P fac idx hbuild st _ _ hst
    · rw [if_neg htc]
      exact hst

theorem findUnitsOn_invariant (P : UnitRec → Prop) (fac : String) (idx : EntryIndex)
    (hbuild : ∀ (entry : Node) (unitName : String) (stats : Chars),
      (extractPointsTiers entry).isEmpty = false →
      P (buildUnit fac idx entry unitName stats (extractPointsTiers entry)))
    (st : FindState) (node : Node) (hst : ∀ u ∈ st.2, P u) :
    ∀ u ∈ (findUnitsOn fac idx st node).2, P u := by
  unfold findUnitsOn
  exact foldl_preserve (fun st : FindState => ∀ u ∈ st.2, P u) (processLink fac idx)
    (fun st l h => processLink_invariant P fac idx hbuild st l h)
    node.entryLinks.toList _
    (foldl_preserve (fun st : FindState => ∀ u ∈ st.2, P u) (processEntry fac idx)
      (fun st e h => processEntry_invariant P fac idx hbuild st e h)
      node.selectionEntries.toList st hst)

theorem catalogUnits_invariant (P : UnitRec → Prop) (c : Node)
    (hbuild : ∀ (entry : Node) (unitName : String) (stats : Chars),
      (extractPointsTiers entry).isEmpty = false →
      P (buildUnit (factionNameClean c.name) (buildEntryIndex c) entry unitName stats
          (extractPointsTiers entry))) :
    ∀ u ∈ catalogUnits c, P u := by
  unfold catalogUnits
  exact findUnitsOn_invariant P _ _ hbuild _ (sharedWrapper c)
    (findUnitsOn_invariant P _ _ hbuild ([], []) c (fun u hu => absurd hu
      (List.not_mem_nil u)))

/-! ### C3: points tiers of emitted units -/

theorem baseTiers_pos (n : Node) : ∀ t ∈ baseTiers n, 0 < t.points := by
  unfold baseTiers
  split_ifs with hb hm
  · intro t ht
    rcases List.mem_singleton.mp ht with rfl
    exact hb
  · intro t ht
    rcases List.mem_singleton.mp ht with rfl
    exact hb
  · intro t ht
    exact absurd ht (List.not_mem_nil t)

theorem tierCondStep_pos (m : Modifier) (ts : List PointsTier) (cond : Condition)
    (hts : ∀ t ∈ ts, 0 < t.points) : ∀ t ∈ tierCondStep m ts cond, 0 < t.points := by
  unfold tierCondStep
  split_ifs with h1 h2
  · intro t ht
    rcases List.mem_append.mp ht with h | h
    · exact hts t h
    · rcases List.mem_singleton.mp h with rfl
      exact of_decide_eq_true ((Bool.and_eq_true ..).mp h2).1
  · exact hts
  · exact hts

theorem tierModStep_pos (ts : List PointsTier) (m : Modifier)
    (hts : ∀ t ∈ ts, 0 < t.points) : ∀ t ∈ tierModStep ts m, 0 < t.points := by
  unfold tierModStep
  split_ifs
  · exact foldl_preserve (fun ts : List PointsTier => ∀ t ∈ ts, 0 < t.points)
      (tierCondStep m) (tierCondStep_pos m) m.conditions ts hts
  · exact hts

theorem tiers_pos (n : Node) : ∀ t ∈ extractPointsTiers n, 0 < t.points := by
  intro t ht
  simp only [extractPointsTiers] at ht
  by_cases hfin : ((n.modifiers.foldl tierModStep (baseTiers n)).isEmpty &&
      decide (basePointsOf n > 0)) = true
  · rw [if_pos hfin] at ht
    rcases List.mem_singleton.mp ht with rfl
    exact of_decide_eq_true ((Bool.and_eq_true ..).mp hfin).2
  · rw [if_neg hfin] at ht
    exact foldl_preserve (fun ts : List PointsTier => ∀ t ∈ ts, 0 < t.points)
      tierModStep tierModStep_pos n.modifiers (baseTiers n) (baseTiers_pos n) t ht

/-- C3 counterexample: a unit entry whose modifier threshold coincides with
its base minimum model count is emitted with two tiers both at model count
5, so the model_count values of an emitted unit's tiers are not pairwise
distinct. -/
theorem catalogUnits_tiers_cex :
    (catalogUnits cat3).map (fun u => u.points_tiers) = [[⟨5, 90⟩, ⟨5, 100⟩]] ∧
    ¬ (([⟨5, 90⟩, ⟨5, 100⟩] : List PointsTier).map
        (fun t => t.model_count)).Nodup :=
  ⟨rfl, by decide⟩

/-- C3 (amended).  Every emitted unit has a non-empty points-tier list and
every tier carries a strictly positive cost (an entry with no derivable
positive cost is dropped, never emitted with a zero tier); however the
model_count values of those tiers need not be pairwise distinct. -/
theorem catalogUnits_tiers_amended (c : Node) (u : UnitRec) (hu : u ∈ catalogUnits c) :
    u.points_tiers ≠ [] ∧ ∀ t ∈ u.points_tiers, 0 < t.points := by
  refine catalogUnits_invariant
    (fun u => u.points_tiers ≠ [] ∧ ∀ t ∈ u.points_tiers, 0 < t.points) c ?_ u hu
  intro entry unitName stats htiers
  exact ⟨List.isEmpty_eq_false.mp htiers, tiers_pos entry⟩

set_option maxRecDepth 400000 in
/-- C3 witness: the amended theorem applied to the concrete emitted unit of
the counterexample document. -/
theorem catalogUnits_tiers_amended_witness :
    squad3Unit ∈ catalogUnits cat3 ∧ squad3Unit.points_tiers ≠ [] ∧
      ∀ t ∈ squad3Unit.points_tiers, 0 < t.points := by
  have hmem : squad3Unit ∈ catalogUnits cat3 := by
    have h : catalogUnits cat3 = [squad3Unit] := rfl
    rw [h]
    exact List.mem_singleton.mpr rfl
  exact ⟨hmem, catalogUnits_tiers_amended cat3 squad3Unit hmem⟩

/-! ### C2: the hidden flag and the two unit-discovery branches -/

theorem admitUnit_provenance (fac : String) (idx : EntryIndex) (st : FindState)
    (entry : Node) (unitName : String) :
    ∀ u ∈ (admitUnit fac idx st entry unitName).2, u ∈ st.2 ∨ u.name = unitName := by
  unfold admitUnit
  by_cases h1 : (unitName == "" || st.1.contains unitName) = true
  · rw [if_pos h1]
    exact fun u hu => Or.inl hu
  · rw [if_neg h1]
    rcases hstats : extractStats entry with _ | stats
    · simp only [hstats]
      exact fun u hu => Or.inl hu
    · simp only [hstats]
      by_cases h2 : (extractPointsTiers entry).isEmpty = true
      · rw [if_pos h2]
        exact fun u hu => Or.inl hu
      · rw [if_neg h2]
        intro u hu
        rcases List.mem_append.mp hu with h | h
        · exact Or.inl h
        · rcases List.mem_singleton.mp h with rfl
          exact Or.inr rfl

theorem processEntry_provenance (fac : String) (idx : EntryIndex) (st : FindState)
    (e : Node) :
    ∀ u ∈ (processEntry fac idx st e).2,
      u ∈ st.2 ∨ (jsIncludes e.hidden "true" = false ∧ u.name = e.name) := by
  unfold processEntry
  split_ifs with h1
  · intro u hu
    rcases admitUnit_provenance fac idx st e e.name u hu with h | h
    · exact Or.inl h
    · refine Or.inr ⟨?_, h⟩
      have hh := ((Bool.and_eq_true ..).mp h1).2
      rwa [Bool.not_eq_true'] at hh
  · exact fun u hu => Or.inl hu

theorem processLink_provenance (fac : String) (idx : EntryIndex) (st : FindState)
    (link : Node) :
    ∀ u ∈ (processLink fac idx st link).2,
      u ∈ st.2 ∨ ∃ target, idxLookup idx link.targetId = some target ∧
        u.name = (if target.name == "" then link.name else target.name) := by
  unfold processLink
  split
  · exact fun u hu => Or.inl hu
  · rename_i target heq
    by_cases htc : (target.type == "unit" || target.type == "model") = true
    · rw [if_pos htc]
      intro u hu
      rcases admitUnit_provenance fac idx st target _ u hu with h | h
      · exact Or.inl h
      · exact Or.inr ⟨target, heq, h⟩
    · rw [if_neg htc]
      exact fun u hu => Or.inl hu

theorem foldl_processEntry_provenance (fac : String) (idx : EntryIndex)
    (l : List Node) :
    ∀ (st : FindState) (u : UnitRec), u ∈ (l.foldl (processEntry fac idx) st).2 →
      u ∈ st.2 ∨ ∃ e ∈ l, jsIncludes e.hidden "true" = false ∧ u.name = e.name := by
  induction l with
  | nil => exact fun st u hu => Or.inl hu
  | cons e l ih =>
    intro st u hu
    rw [List.foldl_cons] at hu
    rcases ih _ u hu with h | ⟨e', he', h⟩
    · rcases processEntry_provenance fac idx st e u h with h' | ⟨hh, hn⟩
      · exact Or.inl h'
      · exact Or.inr ⟨e, List.mem_cons_self e l, hh, hn⟩
    · exact Or.inr ⟨e', List.mem_cons_of_mem e he', h⟩

theorem foldl_processLink_provenance (fac : String) (idx : EntryIndex)
    (l : List Node) :
    ∀ (st : FindState) (u : UnitRec), u ∈ (l.foldl (processLink fac idx) st).2 →
      u ∈ st.2 ∨ ∃ link ∈ l, ∃ target, idxLookup idx link.targetId = some target ∧
        u.name = (if target.name == "" then link.name else target.name) := by
  induction l with
  | nil => exact fun st u hu => Or.inl hu
  | cons link l ih =>
    intro st u hu
    rw [List.foldl_cons] at hu
    rcases ih _ u hu with h | ⟨l', hl', h⟩
    · rcases processLink_provenance fac idx st link u h with h' | ⟨target, ht, hn⟩
      · exact Or.inl h'
      · exact Or.inr ⟨link, List.mem_cons_self link l, target, ht, hn⟩
    · exact Or.inr ⟨l', List.mem_cons_of_mem link hl', h⟩

/-- C2 counterexample: the document `cat2` reaches a `unit` entry flagged
`hidden="true"` only through a top-level entry link, and that unit is
emitted — the entry-link branch of `findUnits` performs no hidden check. -/
theorem catalogUnits_hidden_cex :
    (catalogUnits cat2).map (fun u => u.name) = ["Phantom"] ∧
    phantomT.hidden = "true" ∧
    idxLookup (buildEntryIndex cat2) linkT.targetId = some phantomT :=
  ⟨rfl, rfl, rfl⟩

/-- C2 (amended).  Every emitted unit either stems from a directly scanned
selection entry whose hidden attribute does not contain `true` (this covers
both the document body and the shared pool), or from a top-level entry link
resolved through the entry index — and on that second path no hidden check
is performed. -/
theorem catalogUnits_hidden_amended (c : Node) (u : UnitRec)
    (hu : u ∈ catalogUnits c) :
    (∃ e ∈ c.selectionEntries.toList ++ c.sharedSelectionEntries.toList,
        jsIncludes e.hidden "true" = false ∧ u.name = e.name) ∨
    (∃ link ∈ c.entryLinks.toList, ∃ target,
        idxLookup (buildEntryIndex c) link.targetId = some target ∧
        u.name = (if target.name == "" then link.name else target.name)) := by
  unfold catalogUnits findUnitsOn at hu
  have hwl : (sharedWrapper c).entryLinks.toList = [] := rfl
  have hwe : (sharedWrapper c).selectionEntries = c.sharedSelectionEntries := rfl
  simp only [hwl, List.foldl_nil, hwe] at hu
  rcases foldl_processEntry_provenance _ _ c.sharedSelectionEntries.toList _ u hu
    with hu1 | ⟨e, he, hh, hn⟩
  · rcases foldl_processLink_provenance _ _ c.entryLinks.toList _ u hu1
      with hu2 | hlink
    · rcases foldl_processEntry_provenance _ _ c.selectionEntries.toList _ u hu2
        with hu3 | ⟨e, he, hh, hn⟩
      · exact absurd hu3 (List.not_mem_nil u)
      · exact Or.inl ⟨e, List.mem_append.mpr (Or.inl he), hh, hn⟩
    · exact Or.inr hlink
  · exact Or.inl ⟨e, List.mem_append.mpr (Or.inr he), hh, hn⟩

set_option maxRecDepth 400000 in
/-- C2 witness: the amended theorem applied to the visible unit of a
concrete document with one non-hidden direct entry. -/
theorem catalogUnits_hidden_amended_witness :
    visibleUnit ∈ catalogUnits cat2w ∧
    ((∃ e ∈ cat2w.selectionEntries.toList ++ cat2w.sharedSelectionEntries.toList,
        jsIncludes e.hidden "true" = false ∧ visibleUnit.name = e.name) ∨
     (∃ link ∈ cat2w.entryLinks.toList, ∃ target,
        idxLookup (buildEntryIndex cat2w) link.targetId = some target ∧
        visibleUnit.name = (if target.name == "" then link.name else target.name))) := by
  have hmem : visibleUnit ∈ catalogUnits cat2w := by
    have h : catalogUnits cat2w = [visibleUnit] := rfl
    rw [h]
    exact List.mem_singleton.mpr rfl
  exact ⟨hmem, catalogUnits_hidden_amended cat2w visibleUnit hmem⟩

/-! ### C8: weapon dedup by (name, kind), first occurrence wins -/

theorem dedupWeaponsGo_sub (ws : List Weapon) :
    ∀ (seen : List String) (w : Weapon), w ∈ dedupWeaponsGo seen ws → w ∈ ws := by
  induction ws with
  | nil =>
    intro seen w hw
    exact absurd hw (List.not_mem_nil w)
  | cons v ws ih =>
    intro seen w hw
    simp only [dedupWeaponsGo] at hw
    split_ifs at hw
    · exact List.mem_cons_of_mem v (ih seen w hw)
    · rcases List.mem_cons.mp hw with rfl | hw
      · exact List.mem_cons_self _ _
      · exact List.mem_cons_of_mem v (ih _ w hw)

theorem dedupWeaponsGo_count_zero (K : String) (ws : List Weapon) :
    ∀ seen : List String, seen.contains K = true →
      (dedupWeaponsGo seen ws).countP
        (fun w => (w.name ++ "|" ++ w.type) == K) = 0 := by
  induction ws with
  | nil =>
    intro seen _
    rfl
  | cons v ws ih =>
    intro seen hK
    simp only [dedupWeaponsGo]
    split_ifs with hc
    · exact ih seen hK
    · rw [List.countP_cons]
      have hvK : ((v.name ++ "|" ++ v.type) == K) = false := by
        refine beq_eq_false_iff_ne.mpr fun he => ?_
        rw [he] at hc
        exact hc hK
      have hcont : ((v.name ++ "|" ++ v.type) :: seen).contains K = true := by
        rw [contains_cons_iff, hK, Bool.or_true]
      rw [hvK, ih _ hcont]
      simp

theorem dedupWeaponsGo_count_le_one (K : String) (ws : List Weapon) :
    ∀ seen : List String,
      (dedupWeaponsGo seen ws).countP
        (fun w => (w.name ++ "|" ++ w.type) == K) ≤ 1 := by
  induction ws with
  | nil =>
    intro seen
    simp [dedupWeaponsGo]
  | cons v ws ih =>
    intro seen
    simp only [dedupWeaponsGo]
    split_ifs with hc
    · exact ih seen
    · rw [List.countP_cons]
      by_cases hvK : ((v.name ++ "|" ++ v.type) == K) = true
      · have hKeq : v.name ++ "|" ++ v.type = K := beq_iff_eq.mp hvK
        have hzero := dedupWeaponsGo_count_zero K ws
          ((v.name ++ "|" ++ v.type) :: seen)
          (by rw [contains_cons_iff, beq_iff_eq.mpr hKeq.symm]; rfl)
        rw [hzero, hvK]
        simp
      · rw [Bool.eq_false_iff.mpr hvK]
        have := ih ((v.name ++ "|" ++ v.type) :: seen)
        simp only [Bool.false_eq_true, if_false]
        omega

theorem dedupWeaponsGo_find (K : String) (ws : List Weapon) :
    ∀ seen : List String, seen.contains K = false →
      (dedupWeaponsGo seen ws).find? (fun w => (w.name ++ "|" ++ w.type) == K) =
        ws.find? (fun w => (w.name ++ "|" ++ w.type) == K) := by
  induction ws with
  | nil =>
    intro seen _
    rfl
  | cons v ws ih =>
    intro seen hK
    simp only [dedupWeaponsGo]
    split_ifs with hc
    · have hvK : ((v.name ++ "|" ++ v.type) == K) = false := by
        refine beq_eq_false_iff_ne.mpr fun he => ?_
        rw [he] at hc
        rw [hc] at hK
        exact Bool.true_eq_false.mp hK
      simp only [List.find?, hvK]
      exact ih seen hK
    · by_cases hvK : ((v.name ++ "|" ++ v.type) == K) = true
      · simp only [List.find?, hvK]
      · have hvK' : ((v.name ++ "|" ++ v.type) == K) = false :=
          Bool.eq_false_iff.mpr hvK
        simp only [List.find?, hvK']
        refine ih _ ?_
        rw [contains_cons_iff, hK]
        have hKv : (K == v.name ++ "|" ++ v.type) = false := by
          refine beq_eq_false_iff_ne.mpr fun he => ?_
          exact hvK (beq_iff_eq.mpr he.symm)
        rw [hKv]
        rfl

theorem key_inj {a c b d : String} (hb : b = "ranged" ∨ b = "melee")
    (hd : d = "ranged" ∨ d = "melee") (h : a ++ "|" ++ b = c ++ "|" ++ d) :
    a = c ∧ b = d := by
  have hdata := congrArg String.data h
  simp only [String.data_append] at hdata
  rcases hb with rfl | rfl <;> rcases hd with rfl | rfl
  · refine ⟨?_, rfl⟩
    have h1 := List.append_cancel_right hdata
    have h2 := List.append_cancel_right h1
    exact String.ext h2
  · exfalso
    have hrev := congrArg List.reverse hdata
    simp only [List.reverse_append] at hrev
    have e1 : ("ranged".data).reverse = ['d', 'e', 'g', 'n', 'a', 'r'] := rfl
    have e2 : ("melee".data).reverse = ['e', 'e', 'l', 'e', 'm'] := rfl
    rw [e1, e2] at hrev
    simp only [List.cons_append] at hrev
    injection hrev with h1 _
    exact absurd h1 (by decide)
  · exfalso
    have hrev := congrArg List.reverse hdata
    simp only [List.reverse_append] at hrev
    have e1 : ("melee".data).reverse = ['e', 'e', 'l', 'e', 'm'] := rfl
    have e2 : ("ranged".data).reverse = ['d', 'e', 'g', 'n', 'a', 'r'] := rfl
    rw [e1, e2] at hrev
    simp only [List.cons_append] at hrev
    injection hrev with h1 _
    exact absurd h1 (by decide)
  · refine ⟨?_, rfl⟩
    have h1 := List.append_cancel_right hdata
    have h2 := List.append_cancel_right h1
    exact String.ext h2

theorem weapon_key_pred (w : Weapon) (nm k : String)
    (hw : w.type = "ranged" ∨ w.type = "melee")
    (hk : k = "ranged" ∨ k = "melee") :
    ((w.name ++ "|" ++ w.type) == nm ++ "|" ++ k) = (w.name == nm && w.type == k) := by
  by_cases hn : w.name = nm
  · by_cases ht : w.type = k
    · subst hn
      subst ht
      simp
    · have hL : ((w.name ++ "|" ++ w.type) == nm ++ "|" ++ k) = false := by
        refine beq_eq_false_iff_ne.mpr fun he => ht (key_inj hw hk he).2
      rw [hL, beq_eq_false_iff_ne.mpr ht, Bool.and_false]
  · have hL : ((w.name ++ "|" ++ w.type) == nm ++ "|" ++ k) = false := by
      refine beq_eq_false_iff_ne.mpr fun he => hn (key_inj hw hk he).1
    rw [hL, beq_eq_false_iff_ne.mpr hn, Bool.false_and]

theorem weaponOfProfile_type (p : Profile) :
    (weaponOfProfile p).type =
      if p.typeName == "Ranged Weapons" then "ranged" else "melee" := rfl

theorem extractWeaponsGo_types (fuel : Nat) :
    ∀ (idx : EntryIndex) (n : Node) (w : Weapon), w ∈ extractWeaponsGo fuel idx n →
      w.type = "ranged" ∨ w.type = "melee" := by
  induction fuel with
  | zero =>
    intro idx n w hw
    exact absurd hw (List.not_mem_nil w)
  | succ fuel ih =>
    intro idx n w hw
    rw [extractWeaponsGo] at hw
    simp only [List.mem_append] at hw
    rcases hw with ((hw | hw) | hw) | hw
    · rcases List.mem_map.mp hw with ⟨p, -, rfl⟩
      rw [weaponOfProfile_type]
      split_ifs
      · exact Or.inl rfl
      · exact Or.inr rfl
    · rcases List.mem_flatMap.mp hw with ⟨child, -, hc⟩
      exact ih idx child w hc
    · rcases List.mem_flatMap.mp hw with ⟨child, -, hc⟩
      exact ih idx child w hc
    · rcases List.mem_flatMap.mp hw with ⟨link, -, hc⟩
      rcases List.mem_append.mp hc with hc | hc
      · rcases hlk : idxLookup idx link.targetId with _ | target
        · rw [hlk] at hc
          exact absurd hc (List.not_mem_nil w)
        · rw [hlk] at hc
          exact ih idx target w hc
      · exact ih idx link w hc

theorem extractWeapons_types (n : Node) (idx : EntryIndex) (w : Weapon)
    (hw : w ∈ extractWeapons n idx 0) : w.type = "ranged" ∨ w.type = "melee" :=
  extractWeaponsGo_types (7 - 0) idx n w hw

theorem find?_congr_on {α : Type} {p q : α → Bool} (l : List α)
    (h : ∀ x ∈ l, p x = q x) : l.find? p = l.find? q := by
  induction l with
  | nil => rfl
  | cons a l ih =>
    have ha := h a (List.mem_cons_self a l)
    by_cases hp : p a = true
    · simp only [List.find?, hp, ha ▸ hp]
    · have hp2 : p a = false := Bool.eq_false_iff.mpr hp
      have hq2 : q a = false := ha ▸ hp2
      simp only [List.find?, hp2, hq2]
      exact ih fun x hx => h x (List.mem_cons_of_mem a hx)

/-- C8.  Every emitted unit's weapon list holds at most one weapon per
(name, kind) pair, and dedup keeps the first record of each (name, kind)
encountered in traversal order: the first match in the deduplicated list is
the first match in the raw extraction order. -/
theorem weapons_dedup_spec :
    (∀ (c : Node) (u : UnitRec), u ∈ catalogUnits c →
      ∀ nm k : String,
        u.weapons.countP (fun w => w.name == nm && w.type == k) ≤ 1) ∧
    (∀ (ws : List Weapon) (nm k : String),
      (∀ w ∈ ws, w.type = "ranged" ∨ w.type = "melee") →
      (dedupWeapons ws).find? (fun w => w.name == nm && w.type == k) =
        ws.find? (fun w => w.name == nm && w.type == k)) := by
  constructor
  · intro c u hu nm k
    have hP := catalogUnits_invariant
      (fun u => ∃ raw, u.weapons = dedupWeapons raw ∧
        ∀ w ∈ raw, w.type = "ranged" ∨ w.type = "melee") c
      (fun entry unitName stats _ =>
        ⟨extractWeapons entry (buildEntryIndex c) 0, rfl,
         fun w hw => extractWeapons_types entry (buildEntryIndex c) w hw⟩)
      u hu
    obtain ⟨raw, hweq, htypes⟩ := hP
    rw [hweq]
    by_cases hk : k = "ranged" ∨ k = "melee"
    · calc (dedupWeapons raw).countP (fun w => w.name == nm && w.type == k)
          ≤ (dedupWeapons raw).countP
              (fun w => (w.name ++ "|" ++ w.type) == nm ++ "|" ++ k) := by
            refine List.countP_mono_left fun w hw hp => ?_
            rw [weapon_key_pred w nm k
              (htypes w (dedupWeaponsGo_sub raw [] w hw)) hk]
            exact hp
        _ ≤ 1 := dedupWeaponsGo_count_le_one (nm ++ "|" ++ k) raw []
    · have hzero : (dedupWeapons raw).countP
          (fun w => w.name == nm && w.type == k) = 0 := by
        rw [List.countP_eq_zero]
        intro w hw hp
        have hwt := htypes w (dedupWeaponsGo_sub raw [] w hw)
        have := beq_iff_eq.mp ((Bool.and_eq_true ..).mp hp).2
        exact hk (this ▸ hwt)
      omega
  · intro ws nm k htypes
    by_cases hk : k = "ranged" ∨ k = "melee"
    · have h1 : (dedupWeapons ws).find? (fun w => w.name == nm && w.type == k) =
          (dedupWeapons ws).find?
            (fun w => (w.name ++ "|" ++ w.type) == nm ++ "|" ++ k) := by
        refine find?_congr_on _ fun w hw => ?_
        exact (weapon_key_pred w nm k (htypes w (dedupWeaponsGo_sub ws [] w hw)) hk).symm
      have h2 : ws.find? (fun w => w.name == nm && w.type == k) =
          ws.find? (fun w => (w.name ++ "|" ++ w.type) == nm ++ "|" ++ k) := by
        refine find?_congr_on _ fun w hw => ?_
        exact (weapon_key_pred w nm k (htypes w hw) hk).symm
      rw [h1, h2]
      exact dedupWeaponsGo_find (nm ++ "|" ++ k) ws [] rfl
    · have hnone : ∀ l : List Weapon, (∀ w ∈ l, w.type = "ranged" ∨ w.type = "melee") →
          l.find? (fun w => w.name == nm && w.type == k) = none := by
        intro l hl
        rw [List.find?_eq_none]
        intro w hw hp
        have := beq_iff_eq.mp ((Bool.and_eq_true ..).mp hp).2
        exact hk (this ▸ hl w hw)
      rw [hnone ws htypes,
        hnone (dedupWeapons ws) (fun w hw => htypes w (dedupWeaponsGo_sub ws [] w hw))]

set_option maxRecDepth 400000 in
/-- C8 witness: on the concrete document `cat8`, the `Bolter` profile is
reachable directly and through a cross-reference, the raw extraction sees it
twice, the emitted unit keeps it once, and both branches of the theorem
apply. -/
theorem weapons_dedup_spec_witness :
    unit8Rec ∈ catalogUnits cat8 ∧
    extractWeapons unit8 (buildEntryIndex cat8) 0 =
      [weaponOfProfile bolterProfile, weaponOfProfile bolterProfile] ∧
    unit8Rec.weapons = [weaponOfProfile bolterProfile] ∧
    unit8Rec.weapons.countP
      (fun w => w.name == "Bolter" && w.type == "ranged") ≤ 1 ∧
    (dedupWeapons (extractWeapons unit8 (buildEntryIndex cat8) 0)).find?
        (fun w => w.name == "Bolter" && w.type == "ranged") =
      (extractWeapons unit8 (buildEntryIndex cat8) 0).find?
        (fun w => w.name == "Bolter" && w.type == "ranged") := by
  have hmem : unit8Rec ∈ catalogUnits cat8 := by
    have h : catalogUnits cat8 = [unit8Rec] := rfl
    rw [h]
    exact List.mem_singleton.mpr rfl
  refine ⟨hmem, rfl, rfl, weapons_dedup_spec.1 cat8 unit8Rec hmem "Bolter" "ranged", ?_⟩
  refine weapons_dedup_spec.2 _ "Bolter" "ranged" ?_
  intro w hw
  have : extractWeapons unit8 (buildEntryIndex cat8) 0 =
      [weaponOfProfile bolterProfile, weaponOfProfile bolterProfile] := rfl
  rw [this] at hw
  rcases List.mem_cons.mp hw with rfl | hw
  · exact Or.inl rfl
  · rcases List.mem_singleton.mp hw with rfl
    exact Or.inl rfl

end WLB
